import Mathlib

/-!
Verification development for the KERO ai-worker lyric-timing engine.

The definitions below are shallow embeddings of the Python sources:
  * `sofa/g2p/korean_g2p.py`            (Korean grapheme-to-phoneme converter)
  * `src/processors/sofa_aligner.py`    (SOFA forced-alignment orchestrator)
  * `src/processors/lyrics_processor.py` (line grouping / monotonic enforcement)
  * `src/processors/whisper_processor.py` (API-text/WhisperX-timing mapper,
    prosody annotation stages)

Machine floats are modelled as exact rationals (`ℚ`); Python's `round(x, 3)`
is modelled as exact half-to-even rounding at three decimals.  Python
exceptions are modelled with `Except`.  External model inference (ONNX
aligner, librosa feature extraction) enters as oracle parameters.
-/

namespace Kero

/-- Python `round(x, 3)` helper: round to the nearest integer, ties to even
(banker's rounding, which is what Python's `round` does on exact halves). -/
def roundHalfEven (x : ℚ) : ℤ :=
  let f := ⌊x⌋
  let frac := x - f
  if frac < 1/2 then f
  else if 1/2 < frac then f + 1
  else if 2 ∣ f then f else f + 1

/-- Python `round(x, 3)`: round a time value to three decimal places. -/
def roundQ3 (x : ℚ) : ℚ := (roundHalfEven (x * 1000) : ℚ) / 1000

/-- A rational is an exact multiple of one millisecond.  Every timestamp the
pipeline stores has been passed through `round(x, 3)`, so this invariant holds
for all stored times. -/
def millis (q : ℚ) : Prop := ∃ n : ℤ, q = (n : ℚ) / 1000

/-! ## Korean G2P (`sofa/g2p/korean_g2p.py`, class `KoreanG2P`) -/

/-- ONSET_PHONEMES: the 19 onset (초성) consonants. -/
def ONSET_PHONEMES : List String :=
  ["g", "gg", "n", "d", "dd", "r", "m", "b", "bb",
   "s", "ss", "", "j", "jj", "ch", "k", "t", "p", "h"]

/-- NUCLEUS_PHONEMES: the 21 nucleus (중성) vowels. -/
def NUCLEUS_PHONEMES : List String :=
  ["a", "ae", "ya", "yae", "eo", "e", "yeo", "ye",
   "o", "wa", "wae", "oe", "yo", "u", "wo", "we",
   "wi", "yu", "eu", "ui", "i"]

/-- CODA_PHONEMES: the 28 coda (종성) consonants, index 0 meaning no coda;
codas are mapped to representative (대표음) uppercase phonemes. -/
def CODA_PHONEMES : List String :=
  ["", "K", "K", "K", "N", "N", "N", "T",
   "L", "L", "L", "L", "L", "L", "L", "L",
   "M", "P", "P", "T", "T", "NG", "T", "T",
   "K", "T", "P", "T"]

/-- ENGLISH_PHONEME_MAP: maps each Latin letter to the closest Korean
phoneme(s); keys are the (already lower-cased) single characters of the
Python dict `_ENGLISH_PHONEME_MAP`. -/
def ENGLISH_PHONEME_MAP : List (Char × List String) :=
  [('b', ["b"]), ('c', ["k"]), ('d', ["d"]), ('f', ["p"]), ('g', ["g"]),
   ('h', ["h"]), ('j', ["j"]), ('k', ["k"]), ('l', ["L"]), ('m', ["m"]),
   ('n', ["n"]), ('p', ["p"]), ('q', ["k"]), ('r', ["r"]), ('s', ["s"]),
   ('t', ["t"]), ('v', ["b"]), ('w', ["u"]), ('x', ["k", "s"]), ('z', ["j"]),
   ('a', ["a"]), ('e', ["e"]), ('i', ["i"]), ('o', ["o"]), ('u', ["u"]),
   ('y', ["i"])]

/-- ENGLISH_WORD_MAP: common English words in Korean pop lyrics mapped to
pre-defined phoneme sequences (Python dict `_ENGLISH_WORD_MAP`). -/
def ENGLISH_WORD_MAP : List (String × List String) :=
  [("oh", ["o"]), ("ah", ["a"]), ("uh", ["eo"]), ("eh", ["e"]),
   ("ooh", ["u"]), ("woo", ["u"]), ("whoa", ["wa"]), ("wow", ["wa", "u"]),
   ("hey", ["h", "e", "i"]), ("yay", ["ya", "i"]), ("yo", ["yo"]),
   ("na", ["n", "a"]), ("la", ["r", "a"]), ("da", ["d", "a"]),
   ("yeah", ["ya"]), ("yeh", ["ye"]),
   ("baby", ["b", "e", "i", "b", "i"]), ("babe", ["b", "e", "i", "b"]),
   ("love", ["r", "eo", "b"]), ("girl", ["g", "eo", "L"]),
   ("boy", ["b", "o", "i"]), ("my", ["m", "a", "i"]), ("me", ["m", "i"]),
   ("you", ["yu"]), ("we", ["wi"]), ("no", ["n", "o"]), ("go", ["g", "o"]),
   ("so", ["s", "o"]), ("do", ["d", "u"]), ("know", ["n", "o"]),
   ("say", ["s", "e", "i"]), ("stay", ["s", "eu", "t", "e", "i"]),
   ("day", ["d", "e", "i"]), ("way", ["u", "e", "i"]),
   ("come", ["k", "eo", "M"]), ("one", ["u", "a", "N"]),
   ("time", ["t", "a", "i", "M"]), ("night", ["n", "a", "i", "T"]),
   ("light", ["r", "a", "i", "T"]), ("right", ["r", "a", "i", "T"]),
   ("life", ["r", "a", "i", "P"]), ("heart", ["h", "a", "T"]),
   ("stop", ["s", "eu", "t", "a", "P"]), ("feel", ["p", "i", "L"]),
   ("real", ["r", "i", "eo", "L"]), ("fly", ["p", "eu", "r", "a", "i"]),
   ("cry", ["k", "eu", "r", "a", "i"]), ("try", ["t", "eu", "r", "a", "i"]),
   ("why", ["u", "a", "i"]), ("high", ["h", "a", "i"]),
   ("fire", ["p", "a", "i", "eo"]), ("more", ["m", "o", "eo"]),
   ("like", ["r", "a", "i", "K"]), ("take", ["t", "e", "i", "K"]),
   ("make", ["m", "e", "i", "K"]),
   ("break", ["b", "eu", "r", "e", "i", "K"]),
   ("dance", ["d", "ae", "N", "s", "eu"]),
   ("chance", ["ch", "ae", "N", "s", "eu"]),
   ("forever", ["p", "o", "r", "e", "b", "eo"]),
   ("never", ["n", "e", "b", "eo"]), ("ever", ["e", "b", "eo"]),
   ("over", ["o", "b", "eo"]), ("under", ["eo", "N", "d", "eo"]),
   ("away", ["eo", "u", "e", "i"]),
   ("tonight", ["t", "u", "n", "a", "i", "T"]),
   ("alright", ["o", "L", "r", "a", "i", "T"]),
   ("hello", ["h", "e", "L", "r", "o"]),
   ("world", ["u", "eo", "L", "d", "eu"]), ("only", ["o", "N", "r", "i"]),
   ("just", ["j", "eo", "s", "eu", "T"]), ("wanna", ["u", "a", "n", "a"]),
   ("gonna", ["g", "o", "n", "a"]), ("gotta", ["g", "a", "t", "a"]),
   ("lala", ["r", "a", "r", "a"]), ("lalala", ["r", "a", "r", "a", "r", "a"]),
   ("nanana", ["n", "a", "n", "a", "n", "a"])]

/-- Models `KoreanG2P._is_hangul`: code point in the range 가 (U+AC00) to
힣 (U+D7A3). -/
def isHangul (c : Char) : Bool := 0xAC00 ≤ c.toNat && c.toNat ≤ 0xD7A3

/-- Models `KoreanG2P._decompose`: split a Hangul syllable code point into
(onset, nucleus, coda) indices via `(onset * 21 + nucleus) * 28 + coda`. -/
def decompose (c : Char) : Option (ℕ × ℕ × ℕ) :=
  let code : ℤ := (c.toNat : ℤ) - 0xAC00
  if code < 0 ∨ code > 11171 then none
  else
    let n := code.toNat
    some (n / (21 * 28), (n % (21 * 28)) / 28, n % 28)

/-- Models `KoreanG2P._syllable_to_phonemes`: onset (skipped when silent ㅇ,
index 11, the empty string), nucleus (always), coda (skipped at index 0 or
when its representative is empty).  Indices computed by `decompose` are
always in range, so `getD` defaults are never taken. -/
def syllableToPhonemes (c : Char) : List String :=
  match decompose c with
  | none => []
  | some (onset_idx, nucleus_idx, coda_idx) =>
    let onset := ONSET_PHONEMES.getD onset_idx ""
    let part1 := if onset ≠ "" then [onset] else []
    let part2 := part1 ++ [NUCLEUS_PHONEMES.getD nucleus_idx ""]
    if coda_idx > 0 then
      let coda := CODA_PHONEMES.getD coda_idx ""
      if coda ≠ "" then part2 ++ [coda] else part2
    else part2

/-- Models `KoreanG2P._english_word_to_phonemes`: whole-word lookup against
`ENGLISH_WORD_MAP` first, then a per-character fallback over
`ENGLISH_PHONEME_MAP` that drops unmapped characters.  Lower-casing uses
`Char.toLower` (ASCII); the table keys are pure ASCII, so this agrees with
Python's `str.lower` on every character that can influence a table hit. -/
def englishWordToPhonemes (word : List Char) : List String :=
  let lower := word.map Char.toLower
  match ENGLISH_WORD_MAP.lookup (String.mk lower) with
  | some phs => phs
  | none =>
    lower.foldl (fun acc ch =>
      match ENGLISH_PHONEME_MAP.lookup ch with
      | some mapped => acc ++ mapped
      | none => acc) []

/-- Flush of the pending non-Hangul character run inside `_g2p`'s character
loop (`if non_hangul_chars: ... if eng_phs: extend`); extending with an empty
list is a no-op, so the two guards collapse to one call. -/
def flushRun (run : List Char) : List String :=
  if run = [] then [] else englishWordToPhonemes run

/-- One character step of `_g2p`'s per-word loop: state is the phonemes
emitted so far for this word and the pending non-Hangul run.  `isAlnum`
abstracts Python's Unicode-aware `char.isalpha() or char.isdigit()`; all
theorems below hold for every choice of this predicate. -/
def charStep (isAlnum : Char → Bool) (st : List String × List Char) (c : Char) :
    List String × List Char :=
  if isHangul c then (st.1 ++ flushRun st.2 ++ syllableToPhonemes c, [])
  else if isAlnum c then (st.1, st.2 ++ [c])
  else st

/-- Phonemes a single word contributes in `_g2p` (before the zero-phoneme
filler check): run the character loop, then flush the trailing run. -/
def processWord (isAlnum : Char → Bool) (w : List Char) : List String :=
  let st := w.foldl (charStep isAlnum) ([], [])
  st.1 ++ flushRun st.2

/-- Final phoneme group of a word in `_g2p`: the processed phonemes, or the
single schwa-like filler `eo` when the word yielded zero phonemes. -/
def wordGroup (isAlnum : Char → Bool) (w : List Char) : List String :=
  let phs := processWord isAlnum w
  if phs = [] then ["eo"] else phs

/-- Body of `_g2p`'s word loop: accumulates `ph_seq`, `word_seq` and
`ph_idx_to_word_idx` exactly as the Python code does, including the filler
check that counts occurrences of the current word index in the accumulated
index list. -/
def g2pFold (isAlnum : Char → Bool) :
    List (List Char) → List String → List (List Char) → List ℤ → ℕ →
    List String × List (List Char) × List ℤ
  | [], phAcc, wAcc, idxAcc, _ => (phAcc, wAcc, idxAcc)
  | w :: rest, phAcc, wAcc, idxAcc, k =>
    let wAcc1 := wAcc ++ [w]
    let phs := processWord isAlnum w
    let ph1 := phAcc ++ phs
    let idx1 := idxAcc ++ List.replicate phs.length (k : ℤ)
    let cnt := idx1.count (k : ℤ)
    let ph2 := if cnt = 0 then ph1 ++ ["eo"] else ph1
    let idx2 := if cnt = 0 then idx1 ++ [(k : ℤ)] else idx1
    g2pFold isAlnum rest (ph2 ++ ["SP"]) wAcc1 (idx2 ++ [(-1 : ℤ)]) (k + 1)

/-- Models the `while len(ph_seq) >= 2 and ph_seq[-1] == ph_seq[-2] == 'SP'`
loop of `_g2p` on the reversed lists: drop a leading `SP` while the first two
entries are both `SP`, popping the index list in step. -/
def trimRevAux : String → ℤ → List String → List ℤ → List String × List ℤ
  | p1, i1, p2 :: ps, i2 :: is =>
    if p1 = "SP" ∧ p2 = "SP" then trimRevAux p2 i2 ps is
    else (p1 :: p2 :: ps, i1 :: i2 :: is)
  | p1, i1, ps, is => (p1 :: ps, i1 :: is)

/-- Entry point for the trailing duplicate-`SP` loop on reversed lists. -/
def trimRevSP : List String → List ℤ → List String × List ℤ
  | p1 :: ps, i1 :: is => trimRevAux p1 i1 ps is
  | ph, idx => (ph, idx)

/-- Trailing duplicate-`SP` removal of `_g2p` (pops from the end of both
parallel lists). -/
def trimTrailingSP (ph : List String) (idx : List ℤ) : List String × List ℤ :=
  let r := trimRevSP ph.reverse idx.reverse
  (r.1.reverse, r.2.reverse)

/-- Models the final cleanup pass of `_g2p`: walk the two parallel lists with
a consecutive-`SP` counter, keeping at most 2 consecutive `SP` entries. -/
def cleanupSP : List String → List ℤ → ℕ → List String × List ℤ
  | p :: ps, i :: is, consecutive =>
    if p = "SP" then
      let c := consecutive + 1
      let r := cleanupSP ps is c
      if c ≤ 2 then (p :: r.1, i :: r.2) else r
    else
      let r := cleanupSP ps is 0
      (p :: r.1, i :: r.2)
  | _, _, _ => ([], [])

/-- Models Python `str.split()` (split on whitespace runs, no empty pieces)
followed by `_g2p`'s `if w` filter (a no-op after `split()`).  The whitespace
predicate is a parameter; Python uses the Unicode one. -/
def pySplitAux (isSpace : Char → Bool) : List Char → List Char → List (List Char)
  | [], acc => if acc = [] then [] else [acc.reverse]
  | c :: rest, acc =>
    if isSpace c then
      if acc = [] then pySplitAux isSpace rest []
      else acc.reverse :: pySplitAux isSpace rest []
    else pySplitAux isSpace rest (c :: acc)

/-- Whitespace word-splitting entry point. -/
def pySplit (isSpace : Char → Bool) (cs : List Char) : List (List Char) :=
  pySplitAux isSpace cs []

/-- Models `KoreanG2P._g2p`: returns `(ph_seq, word_seq, ph_idx_to_word_idx)`.
The text is a character list; `isSpace` and `isAlnum` abstract Python's
Unicode character classes (`str.split` whitespace and
`isalpha() or isdigit()`). -/
def g2p (isSpace isAlnum : Char → Bool) (input_text : List Char) :
    List String × List (List Char) × List ℤ :=
  let words := pySplit isSpace input_text
  if words = [] then (["SP"], [], [-1])
  else
    let r := g2pFold isAlnum words ["SP"] [] [-1] 0
    let t := trimTrailingSP r.1 r.2.2
    let e := if t.1.getLast? ≠ some "SP" then (t.1 ++ ["SP"], t.2 ++ [-1]) else t
    let c := cleanupSP e.1 e.2 0
    (c.1, r.2.1, c.2)

example : decompose '한' = some (18, 0, 4) := by decide

example : syllableToPhonemes '한' = ["h", "a", "N"] := by decide

example : g2p Char.isWhitespace (fun c => c.isAlpha || c.isDigit) [' ', ' '] =
    (["SP"], [], [-1]) := by decide

example : g2p Char.isWhitespace (fun c => c.isAlpha || c.isDigit)
    ['한', ' ', '.'] =
    (["SP", "h", "a", "N", "SP", "eo", "SP"], [['한'], ['.']],
     [-1, 0, 0, 0, -1, 1, -1]) := by decide

example : processWord (fun c => c.isAlpha || c.isDigit)
    ['b', 'a', 'b', 'y'] = ["b", "e", "i", "b", "i"] := by decide

/-! ### Structural lemmas for the G2P -/

/-- Association-list lookup only returns stored pairs. -/
lemma lookup_mem {α β : Type} [BEq α] {l : List (α × β)} {k : α} {v : β}
    (h : l.lookup k = some v) : ∃ k', (k', v) ∈ l := by
  induction l with
  | nil => simp [List.lookup] at h
  | cons p t ih =>
    obtain ⟨k', v'⟩ := p
    rw [List.lookup] at h
    by_cases hk : (k == k') = true
    · simp [hk] at h
      exact ⟨k', by simp [h]⟩
    · simp [hk] at h
      obtain ⟨k'', hk''⟩ := ih h
      exact ⟨k'', by simp [hk'']⟩

/-- Indexing with a default into a list avoiding a value stays clear of it. -/
lemma getD_ne_of_forall {l : List String} {d : String}
    (h : ∀ s ∈ l, s ≠ "SP") (hd : d ≠ "SP") (i : ℕ) : l.getD i d ≠ "SP" := by
  induction l generalizing i with
  | nil => simpa [List.getD] using hd
  | cons a t ih =>
    cases i with
    | zero => simpa [List.getD] using h a (by simp)
    | succ j =>
      simpa [List.getD] using ih (fun s hs => h s (by simp [hs])) j

/-- Phoneme values of the whole-word English table never contain `SP`. -/
lemma wordMap_sp_free : ∀ p ∈ ENGLISH_WORD_MAP, "SP" ∉ p.2 := by decide

/-- Phoneme values of the per-character English table never contain `SP`. -/
lemma charMap_sp_free : ∀ p ∈ ENGLISH_PHONEME_MAP, "SP" ∉ p.2 := by decide

/-- Every phoneme produced by syllable decomposition is a `getD` entry of one
of the three tables. -/
lemma mem_syllableToPhonemes {c : Char} {x : String} (h : x ∈ syllableToPhonemes c) :
    (∃ i, x = ONSET_PHONEMES.getD i "") ∨ (∃ i, x = NUCLEUS_PHONEMES.getD i "") ∨
      (∃ i, x = CODA_PHONEMES.getD i "") := by
  unfold syllableToPhonemes at h
  rcases hd : decompose c with _ | ⟨o, n, cd⟩ <;> rw [hd] at h
  · simp at h
  · simp only at h
    split_ifs at h <;>
      simp only [List.mem_append, List.mem_singleton, List.mem_cons,
        List.not_mem_nil, or_false, false_or] at h <;>
      (try casesm* _ ∨ _) <;>
      first
        | exact Or.inl ⟨o, by assumption⟩
        | exact Or.inr (Or.inl ⟨n, by assumption⟩)
        | exact Or.inr (Or.inr ⟨cd, by assumption⟩)

/-- Hangul syllable decomposition never produces the silence token. -/
lemma syllableToPhonemes_sp_free (c : Char) : "SP" ∉ syllableToPhonemes c := by
  intro hmem
  rcases mem_syllableToPhonemes hmem with ⟨i, hi⟩ | ⟨i, hi⟩ | ⟨i, hi⟩
  · exact getD_ne_of_forall (l := ONSET_PHONEMES) (by decide) (by decide) i hi.symm
  · exact getD_ne_of_forall (l := NUCLEUS_PHONEMES) (by decide) (by decide) i hi.symm
  · exact getD_ne_of_forall (l := CODA_PHONEMES) (by decide) (by decide) i hi.symm

/-- English approximation never produces the silence token. -/
lemma englishWordToPhonemes_sp_free (run : List Char) :
    "SP" ∉ englishWordToPhonemes run := by
  unfold englishWordToPhonemes
  simp only
  rcases hl : ENGLISH_WORD_MAP.lookup (String.mk (run.map Char.toLower))
      with _ | phs
  · simp only
    generalize run.map Char.toLower = cs
    induction cs using List.reverseRecOn with
    | nil => simp
    | append_singleton cs c ih =>
      rw [List.foldl_append]
      simp only [List.foldl_cons, List.foldl_nil]
      rcases hc : ENGLISH_PHONEME_MAP.lookup c with _ | mapped <;> simp only
      · exact ih
      · obtain ⟨k', hk'⟩ := lookup_mem hc
        have hsp : "SP" ∉ mapped := charMap_sp_free (k', mapped) hk'
        rw [List.mem_append]
        rintro (h | h)
        · exact ih h
        · exact hsp h
  · simp only
    obtain ⟨k', hk'⟩ := lookup_mem hl
    exact wordMap_sp_free (k', phs) hk'

/-- Run flushing never produces the silence token. -/
lemma flushRun_sp_free (run : List Char) : "SP" ∉ flushRun run := by
  unfold flushRun
  split
  · simp
  · exact englishWordToPhonemes_sp_free run

/-- The per-word character loop never emits the silence token. -/
lemma processWord_sp_free (a : Char → Bool) (w : List Char) :
    "SP" ∉ processWord a w := by
  unfold processWord
  suffices h : ∀ (st : List String × List Char), "SP" ∉ st.1 →
      "SP" ∉ (w.foldl (charStep a) st).1 ∧
      "SP" ∉ flushRun (w.foldl (charStep a) st).2 by
    have := h ([], []) (by simp)
    intro hmem
    rcases List.mem_append.mp hmem with h1 | h2
    · exact this.1 h1
    · exact this.2 h2
  induction w with
  | nil =>
    intro st hst
    exact ⟨hst, flushRun_sp_free _⟩
  | cons c cs ih =>
    intro st hst
    simp only [List.foldl_cons]
    apply ih
    unfold charStep
    split
    · intro hmem
      rcases List.mem_append.mp hmem with h1 | h2
      · rcases List.mem_append.mp h1 with h3 | h4
        · exact hst h3
        · exact flushRun_sp_free _ h4
      · exact syllableToPhonemes_sp_free c h2
    · split
      · exact hst
      · exact hst

/-- Word groups are never empty. -/
lemma wordGroup_ne_nil (a : Char → Bool) (w : List Char) :
    wordGroup a w ≠ [] := by
  unfold wordGroup
  simp only
  split <;> simp_all

/-- Word groups never contain the silence token. -/
lemma wordGroup_sp_free (a : Char → Bool) (w : List Char) :
    "SP" ∉ wordGroup a w := by
  unfold wordGroup
  simp only
  split
  · decide
  · exact processWord_sp_free a w

/-- Closed form of the phoneme sequence accumulated by `_g2p`'s word loop:
one group per word, each followed by a single `SP`. -/
def phClosed (a : Char → Bool) : List (List Char) → List String
  | [] => []
  | w :: ws => wordGroup a w ++ "SP" :: phClosed a ws

/-- Closed form of the word-index list accumulated by `_g2p`'s word loop. -/
def idxClosed (a : Char → Bool) (k : ℕ) : List (List Char) → List ℤ
  | [] => []
  | w :: ws =>
    List.replicate (wordGroup a w).length (k : ℤ) ++ (-1 : ℤ) :: idxClosed a (k + 1) ws

/-- Paired closed form (phoneme, word index). -/
def zipClosed (a : Char → Bool) (k : ℕ) : List (List Char) → List (String × ℤ)
  | [] => []
  | w :: ws =>
    (wordGroup a w).map (fun s => (s, (k : ℤ))) ++ ("SP", -1) :: zipClosed a (k + 1) ws

/-- The word-loop fold of `_g2p` computes the closed forms. -/
lemma g2pFold_eq (a : Char → Bool) (ws : List (List Char)) :
    ∀ (phAcc : List String) (wAcc : List (List Char)) (idxAcc : List ℤ) (k : ℕ),
      (∀ x ∈ idxAcc, x < (k : ℤ)) →
      g2pFold a ws phAcc wAcc idxAcc k =
        (phAcc ++ phClosed a ws, wAcc ++ ws, idxAcc ++ idxClosed a k ws) := by
  induction ws with
  | nil => intro phAcc wAcc idxAcc k _; simp [g2pFold, phClosed, idxClosed]
  | cons w ws ih =>
    intro phAcc wAcc idxAcc k h
    rw [g2pFold]
    have h0 : idxAcc.count (k : ℤ) = 0 := by
      rw [List.count_eq_zero]
      intro hk
      exact absurd (h _ hk) (lt_irrefl _)
    have hcnt : (idxAcc ++ List.replicate (processWord a w).length (k : ℤ)).count (k : ℤ)
        = (processWord a w).length := by
      rw [List.count_append, h0, List.count_replicate]
      simp
    have hnext : ∀ c : ℤ, ∀ x ∈ (idxAcc ++ List.replicate c.toNat (k : ℤ)), x < ((k + 1 : ℕ) : ℤ) := by
      intro c x hx
      rcases List.mem_append.mp hx with hx | hx
      · have := h x hx; push_cast; omega
      · have := List.eq_of_mem_replicate hx; subst this; push_cast; omega
    by_cases hz : processWord a w = []
    · rw [hz] at hcnt ⊢
      simp only [List.length_nil, List.replicate_zero, List.append_nil] at hcnt ⊢
      rw [if_pos hcnt, if_pos hcnt]
      rw [ih _ _ _ _ ?inv]
      case inv =>
        intro x hx
        rcases List.mem_append.mp hx with hx | hx
        · rcases List.mem_append.mp hx with hx | hx
          · have := h x hx; push_cast; omega
          · simp at hx; subst hx; push_cast; omega
        · simp at hx; subst hx; push_cast; omega
      simp [phClosed, idxClosed, wordGroup, hz]
    · rw [if_neg (by rw [hcnt]; simpa using hz), if_neg (by rw [hcnt]; simpa using hz)]
      rw [ih _ _ _ _ ?inv2]
      case inv2 =>
        intro x hx
        rcases List.mem_append.mp hx with hx | hx
        · rcases List.mem_append.mp hx with hx | hx
          · have := h x hx; push_cast; omega
          · have := List.eq_of_mem_replicate hx; subst this; push_cast; omega
        · simp at hx; subst hx; push_cast; omega
      simp [phClosed, idxClosed, wordGroup, hz]

/-- Lists whose members avoid `SP` trivially have no adjacent `SP` pair. -/
lemma chain'_of_sp_free {l : List String} (h : ∀ x ∈ l, x ≠ "SP") :
    List.Chain' (fun x y => ¬(x = "SP" ∧ y = "SP")) l := by
  induction l with
  | nil => simp
  | cons x t ih =>
    rw [List.chain'_cons']
    refine ⟨fun y _ => ?_, ih (fun s hs => h s (by simp [hs]))⟩
    rintro ⟨hx, _⟩
    exact h x (by simp) hx

/-- The leading `SP` plus the closed phoneme form never has two adjacent
`SP` entries. -/
lemma spPhClosed_chain (a : Char → Bool) (ws : List (List Char)) :
    List.Chain' (fun x y => ¬(x = "SP" ∧ y = "SP")) ("SP" :: phClosed a ws) := by
  induction ws with
  | nil => simp [phClosed]
  | cons w ws ih =>
    have hrw : "SP" :: phClosed a (w :: ws)
        = ("SP" :: wordGroup a w) ++ ("SP" :: phClosed a ws) := by
      simp [phClosed]
    rw [hrw, List.chain'_append]
    refine ⟨?_, ih, ?_⟩
    · rw [List.chain'_cons']
      refine ⟨fun y hy => ?_, chain'_of_sp_free ?_⟩
      · rintro ⟨_, hy2⟩
        exact wordGroup_sp_free a w (hy2 ▸ List.mem_of_mem_head? hy)
      · intro s hs he
        exact wordGroup_sp_free a w (he ▸ hs)
    · intro x hx y hy
      rintro ⟨hx2, _⟩
      have hne : wordGroup a w ≠ [] := wordGroup_ne_nil a w
      rcases hgl : wordGroup a w with _ | ⟨g, gs⟩
      · exact hne hgl
      · rw [hgl] at hx
        rw [List.getLast?_cons_cons] at hx
        have : x ∈ g :: gs := List.mem_of_mem_getLast? hx
        exact wordGroup_sp_free a w (hx2 ▸ (hgl ▸ this))

/-- Shape of the closed phoneme form: it ends in a non-`SP` phoneme followed
by a single `SP`. -/
lemma spPhClosed_decomp (a : Char → Bool) :
    ∀ ws : List (List Char), ws ≠ [] →
      ∃ pre x, "SP" :: phClosed a ws = pre ++ [x, "SP"] ∧ x ≠ "SP"
  | [], h => absurd rfl h
  | [w], _ => by
    obtain ⟨g, x, hgx⟩ : ∃ g x, wordGroup a w = g ++ [x] := by
      rcases (wordGroup a w).eq_nil_or_concat with h | ⟨g, x, h⟩
      · exact absurd h (wordGroup_ne_nil a w)
      · exact ⟨g, x, by simpa [List.concat_eq_append] using h⟩
    refine ⟨"SP" :: g, x, by simp [phClosed, hgx], fun he => ?_⟩
    exact wordGroup_sp_free a w (by rw [hgx, he]; simp)
  | w :: w2 :: ws2, _ => by
    obtain ⟨pre, x, hpre, hx⟩ := spPhClosed_decomp a (w2 :: ws2) (by simp)
    refine ⟨"SP" :: wordGroup a w ++ pre, x, ?_, hx⟩
    calc "SP" :: phClosed a (w :: w2 :: ws2)
        = "SP" :: wordGroup a w ++ ("SP" :: phClosed a (w2 :: ws2)) := by
          simp [phClosed]
      _ = "SP" :: wordGroup a w ++ (pre ++ [x, "SP"]) := by rw [hpre]
      _ = ("SP" :: wordGroup a w ++ pre) ++ [x, "SP"] := by simp

/-- Reversed trailing-`SP` loop is a no-op when the second entry is not
`SP`. -/
lemma trimRevSP_id (rest : List String) (x : String) (ir : List ℤ)
    (hx : x ≠ "SP") :
    trimRevSP ("SP" :: x :: rest) ir = ("SP" :: x :: rest, ir) := by
  rcases ir with _ | ⟨i, is⟩
  · rfl
  · rcases is with _ | ⟨i2, is2⟩
    · rfl
    · show trimRevAux "SP" i (x :: rest) (i2 :: is2) = _
      rw [trimRevAux, if_neg (by simp [hx])]

/-- The trailing duplicate-`SP` loop is a no-op when the sequence ends in a
non-`SP` phoneme followed by a single `SP`. -/
lemma trimTrailingSP_id (pre : List String) (x : String) (idx : List ℤ)
    (hx : x ≠ "SP") :
    trimTrailingSP (pre ++ [x, "SP"]) idx = (pre ++ [x, "SP"], idx) := by
  unfold trimTrailingSP
  have hrev : (pre ++ [x, "SP"]).reverse = "SP" :: x :: pre.reverse := by simp
  rw [hrev, trimRevSP_id _ _ _ hx]
  simp

/-- The consecutive-`SP` cleanup pass is a no-op on sequences with no two
adjacent `SP` entries. -/
lemma cleanupSP_id :
    ∀ (ph : List String) (idx : List ℤ) (c : ℕ),
      List.Chain' (fun x y => ¬(x = "SP" ∧ y = "SP")) ph →
      ph.length = idx.length →
      c ≤ 1 → (c = 1 → ph.head? ≠ some "SP") →
      cleanupSP ph idx c = (ph, idx) := by
  intro ph
  induction ph with
  | nil =>
    intro idx c _ hlen _ _
    have : idx = [] := by
      cases idx
      · rfl
      · simp at hlen
    subst this
    rfl
  | cons p ps ih =>
    intro idx c hch hlen hc hc1
    rcases idx with _ | ⟨i, is⟩
    · simp at hlen
    · rw [cleanupSP]
      by_cases hp : p = "SP"
      · have hc0 : c = 0 := by
          rcases Nat.eq_or_lt_of_le hc with h1 | h1
          · exact absurd (by simp [hp]) (hc1 h1)
          · omega
        subst hc0
        rw [if_pos hp]
        have hps : cleanupSP ps is 1 = (ps, is) := by
          apply ih
          · exact (List.chain'_cons'.mp hch).2
          · simpa using hlen
          · omega
          · intro _
            rcases hhead : ps.head? with _ | y
            · simp
            · have hthis := (List.chain'_cons'.mp hch).1 y hhead
              intro he
              have hy : y = "SP" := by simpa using he
              exact hthis ⟨hp, hy⟩
        simp [hps]
      · rw [if_neg hp]
        have hps : cleanupSP ps is 0 = (ps, is) := by
          apply ih
          · exact (List.chain'_cons'.mp hch).2
          · simpa using hlen
          · omega
          · intro h01; exact absurd h01 (by omega)
        simp [hps]

/-- Lengths of the two closed forms agree. -/
lemma phClosed_length (a : Char → Bool) :
    ∀ (ws : List (List Char)) (k : ℕ),
      (phClosed a ws).length = (idxClosed a k ws).length
  | [], _ => rfl
  | w :: ws, k => by
    simp [phClosed, idxClosed, phClosed_length a ws (k + 1)]

/-- Zipping a list with a replicated constant of its own length is a map. -/
lemma zip_replicate_self {α : Type} (v : ℤ) :
    ∀ l : List α, l.zip (List.replicate l.length v) = l.map (fun s => (s, v))
  | [] => rfl
  | x :: t => by
    simp [List.replicate_succ, zip_replicate_self v t]

/-- The zip of the two closed forms is the paired closed form. -/
lemma zip_closed_eq (a : Char → Bool) :
    ∀ (ws : List (List Char)) (k : ℕ),
      (phClosed a ws).zip (idxClosed a k ws) = zipClosed a k ws
  | [], _ => rfl
  | w :: ws, k => by
    rw [phClosed, idxClosed, zipClosed]
    rw [List.zip_append (by simp)]
    rw [zip_replicate_self]
    simp [zip_closed_eq a ws (k + 1)]

/-- Entries of the paired closed form: the index is `-1` exactly at `SP`
positions, and every index is `-1` or at least the running word counter. -/
lemma zipClosed_mem (a : Char → Bool) :
    ∀ (ws : List (List Char)) (k : ℕ) (p : String × ℤ), p ∈ zipClosed a k ws →
      ((p.2 = -1 ↔ p.1 = "SP") ∧ (p.2 = -1 ∨ (k : ℤ) ≤ p.2))
  | [], _, p, hp => by simp [zipClosed] at hp
  | w :: ws, k, p, hp => by
    rw [zipClosed] at hp
    rcases List.mem_append.mp hp with hp | hp
    · obtain ⟨s, hs, hsp⟩ := List.mem_map.mp hp
      subst hsp
      constructor
      · simp only
        constructor
        · intro h; exfalso; omega
        · intro h; exact absurd (h ▸ hs) (wordGroup_sp_free a w)
      · right; simp
    · rcases List.mem_cons.mp hp with hp | hp
      · subst hp; simp
      · have := zipClosed_mem a ws (k + 1) p hp
        refine ⟨this.1, ?_⟩
        rcases this.2 with h | h
        · left; exact h
        · right; push_cast at h ⊢; omega

/-- Filtering the paired closed form at word index `k + j` recovers exactly
word `j`'s phoneme group. -/
lemma zipClosed_filter (a : Char → Bool) :
    ∀ (ws : List (List Char)) (k j : ℕ) (hj : j < ws.length),
      ((zipClosed a k ws).filter (fun p => p.2 == ((k + j : ℕ) : ℤ))).map Prod.fst
        = wordGroup a (ws.get ⟨j, hj⟩)
  | [], _, j, hj => by simp at hj
  | w :: ws, k, 0, hj => by
    rw [zipClosed]
    rw [List.filter_append]
    have h1 : ((wordGroup a w).map (fun s => (s, (k : ℤ)))).filter
        (fun p => p.2 == ((k + 0 : ℕ) : ℤ)) = (wordGroup a w).map (fun s => (s, (k : ℤ))) := by
      apply List.filter_eq_self.mpr
      intro p hp
      obtain ⟨s, _, hsp⟩ := List.mem_map.mp hp
      subst hsp
      simp
    have h2 : (("SP", (-1 : ℤ)) :: zipClosed a (k + 1) ws).filter
        (fun p => p.2 == ((k + 0 : ℕ) : ℤ)) = [] := by
      rw [List.filter_eq_nil_iff]
      intro p hp
      rcases List.mem_cons.mp hp with hp | hp
      · subst hp; simp only [beq_iff_eq]; omega
      · have := (zipClosed_mem a ws (k + 1) p hp).2
        simp only [beq_iff_eq]
        rcases this with h | h
        · rw [h]; intro hcon; omega
        · push_cast at h ⊢; omega
    rw [h1, h2, List.append_nil, List.map_map]
    have hid : (Prod.fst ∘ fun s : String => (s, (k : ℤ))) = id := rfl
    rw [hid, List.map_id]
    rfl
  | w :: ws, k, j + 1, hj => by
    rw [zipClosed]
    rw [List.filter_append]
    have h1 : ((wordGroup a w).map (fun s => (s, (k : ℤ)))).filter
        (fun p => p.2 == ((k + (j + 1) : ℕ) : ℤ)) = [] := by
      rw [List.filter_eq_nil_iff]
      intro p hp
      obtain ⟨s, _, hsp⟩ := List.mem_map.mp hp
      subst hsp
      simp only [beq_iff_eq]
      push_cast
      omega
    have h2 : (k + 1) + j = k + (j + 1) := by omega
    have h3 := zipClosed_filter a ws (k + 1) j (by simpa using Nat.lt_of_succ_lt_succ hj)
    rw [h1, List.nil_append]
    rw [List.filter_cons]
    rw [if_neg (by simp; omega)]
    rw [h2] at h3
    rw [h3]
    simp

/-- Closure of the no-adjacent-`SP` property under index access. -/
lemma no_adjacent_sp_get? {l : List String}
    (h : List.Chain' (fun x y => ¬(x = "SP" ∧ y = "SP")) l) (i : ℕ) :
    ¬(l.get? i = some "SP" ∧ l.get? (i + 1) = some "SP") := by
  rintro ⟨h1, h2⟩
  obtain ⟨hlt1, hget1⟩ := List.get?_eq_some.mp h1
  obtain ⟨hlt2, hget2⟩ := List.get?_eq_some.mp h2
  rw [List.chain'_iff_get] at h
  exact h i (by omega) ⟨by rw [← hget1], by rw [← hget2]⟩

/-- Splitting an all-whitespace character list yields no words. -/
lemma pySplit_all_space (sp : Char → Bool) :
    ∀ cs : List Char, (∀ c ∈ cs, sp c = true) → pySplit sp cs = [] := by
  intro cs h
  unfold pySplit
  induction cs with
  | nil => rfl
  | cons c rest ih =>
    rw [pySplitAux]
    rw [if_pos (h c (by simp))]
    rw [if_pos rfl]
    exact ih (fun c' hc' => h c' (by simp [hc']))

/-- Full characterisation of `_g2p` on inputs that contain at least one
word: leading `SP`, then per-word phoneme groups each followed by one `SP`;
trailing-`SP` removal, terminal `SP` insertion and `SP`-run cleanup are all
no-ops on this shape. -/
lemma g2p_eq (sp a : Char → Bool) (text : List Char)
    (h : pySplit sp text ≠ []) :
    g2p sp a text =
      ("SP" :: phClosed a (pySplit sp text), pySplit sp text,
       (-1 : ℤ) :: idxClosed a 0 (pySplit sp text)) := by
  obtain ⟨pre, x, hpre, hx⟩ := spPhClosed_decomp a (pySplit sp text) h
  unfold g2p
  rw [if_neg h]
  have hfold := g2pFold_eq a (pySplit sp text) ["SP"] [] [-1] 0
    (by intro z hz; simp at hz; omega)
  simp only [hfold, List.nil_append, List.singleton_append]
  rw [hpre, trimTrailingSP_id pre x _ hx]
  have hlast : (pre ++ [x, "SP"]).getLast? = some "SP" := by
    have : pre ++ [x, "SP"] = (pre ++ [x]) ++ ["SP"] := by simp
    rw [this, List.getLast?_append_of_ne_nil _ (by simp)]
    rfl
  rw [if_neg (by simp [hlast])]
  have hchain : List.Chain' (fun u v => ¬(u = "SP" ∧ v = "SP")) (pre ++ [x, "SP"]) := by
    rw [← hpre]; exact spPhClosed_chain a _
  have hlen : (pre ++ [x, "SP"]).length = ((-1 : ℤ) :: idxClosed a 0 (pySplit sp text)).length := by
    rw [← hpre]
    simp [phClosed_length a (pySplit sp text) 0]
  have hclean := cleanupSP_id (pre ++ [x, "SP"])
      ((-1 : ℤ) :: idxClosed a 0 (pySplit sp text)) 0 hchain hlen
      (by omega) (fun h01 => absurd h01 (by omega))
  simp only [hclean]

/-- C2: for every input text, the phoneme sequence returned by `_g2p` starts
with exactly one `SP`, ends with exactly one `SP`, contains no run of more
than 2 consecutive `SP` tokens, has a word-index list of the same length, and
carries index `-1` exactly at the `SP` positions. -/
theorem g2p_sp_framing (sp a : Char → Bool) (text : List Char) :
    (g2p sp a text).1.head? = some "SP" ∧
    (g2p sp a text).1.getLast? = some "SP" ∧
    (2 ≤ (g2p sp a text).1.length →
      (g2p sp a text).1.get? 1 ≠ some "SP" ∧
      (g2p sp a text).1.get? ((g2p sp a text).1.length - 2) ≠ some "SP") ∧
    (∀ i : ℕ, ¬((g2p sp a text).1.get? i = some "SP" ∧
                (g2p sp a text).1.get? (i + 1) = some "SP" ∧
                (g2p sp a text).1.get? (i + 2) = some "SP")) ∧
    (g2p sp a text).1.length = (g2p sp a text).2.2.length ∧
    (∀ p ∈ (g2p sp a text).1.zip (g2p sp a text).2.2, (p.2 = -1 ↔ p.1 = "SP")) := by
  by_cases hsp : pySplit sp text = []
  · have hg : g2p sp a text = (["SP"], [], [-1]) := by
      unfold g2p
      rw [if_pos hsp]
    rw [hg]
    refine ⟨rfl, rfl, ?_, ?_, rfl, ?_⟩
    · intro h2; simp at h2
    · rintro i ⟨_, h2, _⟩
      rw [List.get?_eq_some] at h2
      obtain ⟨hlt, _⟩ := h2
      simp at hlt
    · intro p hp
      simp at hp
      simp [hp]
  · have hg := g2p_eq sp a text hsp
    obtain ⟨pre, x, hpre, hx⟩ := spPhClosed_decomp a (pySplit sp text) hsp
    have hchain := spPhClosed_chain a (pySplit sp text)
    have hlast : ("SP" :: phClosed a (pySplit sp text)).getLast? = some "SP" := by
      rw [hpre]
      have : pre ++ [x, "SP"] = (pre ++ [x]) ++ ["SP"] := by simp
      rw [this, List.getLast?_append_of_ne_nil _ (by simp)]
      rfl
    rw [hg]
    dsimp only
    have hnadj := fun i => no_adjacent_sp_get? hchain i
    refine ⟨rfl, hlast, ?_, ?_, ?_, ?_⟩
    · intro hlen2
      constructor
      · intro h1
        exact hnadj 0 ⟨rfl, h1⟩
      · intro h1
        have hL1 : ("SP" :: phClosed a (pySplit sp text)).get?
            (("SP" :: phClosed a (pySplit sp text)).length - 1) = some "SP" := by
          rw [List.get?_eq_getElem?, ← List.getLast?_eq_getElem?]
          exact hlast
        have hstep : (("SP" :: phClosed a (pySplit sp text)).length - 2) + 1
            = ("SP" :: phClosed a (pySplit sp text)).length - 1 := by
          simp at hlen2 ⊢
          omega
        exact hnadj (("SP" :: phClosed a (pySplit sp text)).length - 2)
          ⟨h1, by rw [hstep]; exact hL1⟩
    · rintro i ⟨h1, h2, _⟩
      exact hnadj i ⟨h1, h2⟩
    · simp [phClosed_length a (pySplit sp text) 0]
    · intro p hp
      rw [List.zip_cons_cons, zip_closed_eq a (pySplit sp text) 0] at hp
      rcases List.mem_cons.mp hp with hp | hp
      · subst hp; simp
      · exact (zipClosed_mem a (pySplit sp text) 0 p hp).1

/-- Concrete sample invocation of the phonemizer used by the witnesses. -/
def g2pSample : List String × List (List Char) × List ℤ :=
  g2p Char.isWhitespace (fun c => c.isAlpha || c.isDigit) ['한', ' ', '.']

/-- Witness for C2 at a concrete mixed Korean/punctuation input. -/
theorem g2p_sp_framing_witness :
    g2pSample.1.head? = some "SP" ∧
    g2pSample.1.getLast? = some "SP" ∧
    (2 ≤ g2pSample.1.length →
      g2pSample.1.get? 1 ≠ some "SP" ∧
      g2pSample.1.get? (g2pSample.1.length - 2) ≠ some "SP") ∧
    (∀ i : ℕ, ¬(g2pSample.1.get? i = some "SP" ∧
                g2pSample.1.get? (i + 1) = some "SP" ∧
                g2pSample.1.get? (i + 2) = some "SP")) ∧
    g2pSample.1.length = g2pSample.2.2.length ∧
    (∀ p ∈ g2pSample.1.zip g2pSample.2.2, (p.2 = -1 ↔ p.1 = "SP")) :=
  g2p_sp_framing Char.isWhitespace (fun c => c.isAlpha || c.isDigit) ['한', ' ', '.']

/-- C3: every whitespace-separated word receives at least one phoneme; the
phonemes mapped to word `j` are exactly its processed group, which is the
single filler `eo` exactly when the word produced zero phonemes itself. -/
theorem g2p_word_coverage (sp a : Char → Bool) (text : List Char) (j : ℕ)
    (hj : j < (g2p sp a text).2.1.length) :
    (((g2p sp a text).1.zip (g2p sp a text).2.2).filter
        (fun p => p.2 == (j : ℤ))).map Prod.fst
      = wordGroup a ((g2p sp a text).2.1.get ⟨j, hj⟩) ∧
    1 ≤ ((((g2p sp a text).1.zip (g2p sp a text).2.2).filter
        (fun p => p.2 == (j : ℤ))).map Prod.fst).length ∧
    (processWord a ((g2p sp a text).2.1.get ⟨j, hj⟩) = [] →
      (((g2p sp a text).1.zip (g2p sp a text).2.2).filter
        (fun p => p.2 == (j : ℤ))).map Prod.fst = ["eo"]) := by
  by_cases hsp : pySplit sp text = []
  · exfalso
    have hg : g2p sp a text = (["SP"], [], [-1]) := by
      unfold g2p; rw [if_pos hsp]
    rw [hg] at hj
    simp at hj
  · have hg := g2p_eq sp a text hsp
    revert hj
    rw [hg]
    dsimp only
    intro hj
    have hfil : ((("SP" :: phClosed a (pySplit sp text)).zip
        ((-1 : ℤ) :: idxClosed a 0 (pySplit sp text))).filter
        (fun p => p.2 == (j : ℤ))).map Prod.fst
        = wordGroup a ((pySplit sp text).get ⟨j, hj⟩) := by
      rw [List.zip_cons_cons, zip_closed_eq a (pySplit sp text) 0]
      rw [List.filter_cons]
      rw [if_neg (by simp)]
      have h0j : (0 + j : ℕ) = j := by omega
      have := zipClosed_filter a (pySplit sp text) 0 j hj
      rw [h0j] at this
      exact this
    refine ⟨hfil, ?_, ?_⟩
    · rw [hfil]
      have := wordGroup_ne_nil a ((pySplit sp text).get ⟨j, hj⟩)
      exact Nat.one_le_iff_ne_zero.mpr (by simpa using this)
    · intro hz
      rw [hfil]
      unfold wordGroup
      simp only [List.get_eq_getElem] at hz ⊢
      simp [hz]

/-- Witness for C3: the pure-punctuation word "." (word index 1 of the input
`"한 ."`) receives exactly the filler phoneme `eo`. -/
theorem g2p_word_coverage_witness :
    ((g2pSample.1.zip g2pSample.2.2).filter
        (fun p => p.2 == ((1 : ℕ) : ℤ))).map Prod.fst
      = wordGroup (fun c => c.isAlpha || c.isDigit)
          (g2pSample.2.1.get ⟨1, (by decide)⟩) ∧
    1 ≤ (((g2pSample.1.zip g2pSample.2.2).filter
        (fun p => p.2 == ((1 : ℕ) : ℤ))).map Prod.fst).length ∧
    (processWord (fun c => c.isAlpha || c.isDigit)
        (g2pSample.2.1.get ⟨1, (by decide)⟩) = [] →
      ((g2pSample.1.zip g2pSample.2.2).filter
        (fun p => p.2 == ((1 : ℕ) : ℤ))).map Prod.fst = ["eo"]) :=
  g2p_word_coverage Char.isWhitespace (fun c => c.isAlpha || c.isDigit)
    ['한', ' ', '.'] 1 (by decide)

/-- C9: the syllable 한 (U+D55C) decomposes to onset 18, nucleus 0, coda 4
and yields exactly the phonemes `["h", "a", "N"]`. -/
theorem decompose_han :
    decompose '한' = some (18, 0, 4) ∧
    syllableToPhonemes '한' = ["h", "a", "N"] ∧
    ONSET_PHONEMES.getD 18 "" = "h" ∧
    NUCLEUS_PHONEMES.getD 0 "" = "a" ∧
    CODA_PHONEMES.getD 4 "" = "N" := by decide

/-- C10: on empty or all-whitespace input, `_g2p` returns a single shared
silence token, an empty word list, and the index list `[-1]`. -/
theorem g2p_whitespace_degenerate (sp a : Char → Bool) (cs : List Char)
    (h : ∀ c ∈ cs, sp c = true) :
    g2p sp a cs = (["SP"], [], [-1]) := by
  have hsplit : pySplit sp cs = [] := pySplit_all_space sp cs h
  unfold g2p
  rw [if_pos hsplit]

/-- Witness for C10 at the single-space input. -/
theorem g2p_whitespace_degenerate_witness :
    g2p Char.isWhitespace (fun c => c.isAlpha || c.isDigit) [' '] =
      (["SP"], [], [-1]) :=
  g2p_whitespace_degenerate Char.isWhitespace (fun c => c.isAlpha || c.isDigit)
    [' '] (by decide)

/-! ## Line/word data model (`lyrics.json` records)

Words and lines are the plain dict records of the pipeline
(`{"text", "start_time", "end_time", ...}`); optional prosody annotations are
typed as `Option` fields that default to `none` (missing key). -/

/-- A word record. -/
structure LyrWord where
  text : String
  start_time : ℚ
  end_time : ℚ
  energy : Option ℚ := none
  energy_curve : Option (List ℚ) := none
  pitch : Option ℚ := none
  note : Option String := none
  midi : Option ℤ := none
  voiced : Option ℚ := none

/-- A line record. -/
structure LyrLine where
  text : String
  start_time : ℚ
  end_time : ℚ
  words : List LyrWord

/-! ## Monotonic line enforcement
(`lyrics_processor.py`, `LyricsProcessor._enforce_monotonic_lines`) -/

/-- Models the word-redistribution loop of `_enforce_monotonic_lines`:
every word receives a share of the compressed line duration proportional to
`max(1, _count_chars(word))`; stored times are rounded to 3 decimals while
the running cursor stays exact, as in the Python code. -/
def redistAux (cc : String → ℕ) (total : ℕ) (lineDur : ℚ) :
    List LyrWord → ℚ → List LyrWord
  | [], _ => []
  | w :: ws, cur =>
    let chars : ℕ := max 1 (cc w.text)
    let wDur := lineDur * ((chars : ℚ) / (total : ℚ))
    { w with start_time := roundQ3 cur, end_time := roundQ3 (cur + wDur) }
      :: redistAux cc total lineDur ws (cur + wDur)

/-- Entry point of the redistribution: `total_chars` is summed first. -/
def redistributeWords (cc : String → ℕ) (ws : List LyrWord)
    (lineStart lineDur : ℚ) : List LyrWord :=
  let total : ℕ := (ws.map (fun w => max 1 (cc w.text))).sum
  redistAux cc total lineDur ws lineStart

/-- Recomputation of line boundaries from word data (`if words:` block at the
top of the loop body). -/
def recomputeBounds (line : LyrLine) : LyrLine :=
  match line.words with
  | [] => line
  | w :: ws =>
    { line with start_time := w.start_time,
                end_time := ((w :: ws).getLast (List.cons_ne_nil w ws)).end_time }

/-- Models one iteration of the loop of `_enforce_monotonic_lines`: boundary
recomputation, overlap clamp against `prev_end`, optional end push preserving
the original duration (floored at 0.5s), proportional word redistribution in
the overlap case, and the final `end > start` guard adding 0.5s.  The
`cc` parameter abstracts `_count_chars` (which relies on Python `unicodedata`
normalisation); no theorem below depends on its values.  Returns the updated
line and the new `prev_end`. -/
def enforceStep (cc : String → ℕ) (prevEnd : ℚ) (line : LyrLine) :
    LyrLine × ℚ :=
  let line1 := recomputeBounds line
  let ls0 := line1.start_time
  let le0 := line1.end_time
  if ls0 < prevEnd then
    let ls := prevEnd
    let line2 := { line1 with start_time := roundQ3 ls }
    let pushed : ℚ × LyrLine :=
      if le0 ≤ ls then
        let od := max (le0 - ls0) (1/2)
        (ls + od, { line2 with end_time := roundQ3 (ls + od) })
      else (le0, line2)
    let le := pushed.1
    let line3 := pushed.2
    let line4 :=
      if line3.words.isEmpty then line3
      else { line3 with
             words := redistributeWords cc line3.words ls (max (le - ls) (1/10)) }
    if le ≤ ls then ({ line4 with end_time := roundQ3 (ls + 1/2) }, ls + 1/2)
    else (line4, le)
  else
    if le0 ≤ ls0 then ({ line1 with end_time := roundQ3 (ls0 + 1/2) }, ls0 + 1/2)
    else (line1, le0)

/-- The loop of `_enforce_monotonic_lines`, threading `prev_end`. -/
def enforceGo (cc : String → ℕ) : ℚ → List LyrLine → List LyrLine
  | _, [] => []
  | prevEnd, l :: ls =>
    let r := enforceStep cc prevEnd l
    r.1 :: enforceGo cc r.2 ls

/-- Models `LyricsProcessor._enforce_monotonic_lines` (`prev_end` starts at
0.0; the empty-input early return coincides with the loop on `[]`). -/
def enforceMonotonicLines (cc : String → ℕ) (lines : List LyrLine) :
    List LyrLine :=
  enforceGo cc 0 lines

/-- The invariant asserted by the spec for reconciled output: non-overlapping
consecutive lines, non-overlapping consecutive words inside every line, and
line boundaries equal to the first word's start and last word's end. -/
def reconciledInvariant (ls : List LyrLine) : Prop :=
  List.Chain' (fun a b => a.end_time ≤ b.start_time) ls ∧
  ∀ l ∈ ls,
    List.Chain' (fun a b => a.end_time ≤ b.start_time) l.words ∧
    (∀ w ∈ l.words.head?, l.start_time = w.start_time) ∧
    (∀ w ∈ l.words.getLast?, l.end_time = w.end_time)

/-- The duration-bounds property asserted by the spec: every line's duration
lies within `[1.0, 15.0]` seconds. -/
def durationInvariant (ls : List LyrLine) : Prop :=
  ∀ l ∈ ls, 1 ≤ l.end_time - l.start_time ∧ l.end_time - l.start_time ≤ 15

/-! ### Millisecond-multiple arithmetic -/

lemma millis_zero : millis 0 := ⟨0, by norm_num⟩

lemma millis_half : millis (1/2) := ⟨500, by norm_num⟩

lemma millis_add {a b : ℚ} (ha : millis a) (hb : millis b) : millis (a + b) := by
  obtain ⟨m, rfl⟩ := ha
  obtain ⟨n, rfl⟩ := hb
  exact ⟨m + n, by push_cast; ring⟩

lemma millis_sub {a b : ℚ} (ha : millis a) (hb : millis b) : millis (a - b) := by
  obtain ⟨m, rfl⟩ := ha
  obtain ⟨n, rfl⟩ := hb
  exact ⟨m - n, by push_cast; ring⟩

lemma millis_max {a b : ℚ} (ha : millis a) (hb : millis b) : millis (max a b) := by
  rcases max_choice a b with h | h <;> rw [h]
  · exact ha
  · exact hb

lemma roundHalfEven_intCast (n : ℤ) : roundHalfEven (n : ℚ) = n := by
  unfold roundHalfEven
  simp only [Int.floor_intCast, sub_self]
  norm_num

/-- Python `round(x, 3)` is the identity on exact millisecond multiples. -/
lemma roundQ3_eq_self {q : ℚ} (h : millis q) : roundQ3 q = q := by
  obtain ⟨n, rfl⟩ := h
  unfold roundQ3
  have h1 : ((n : ℚ) / 1000) * 1000 = (n : ℚ) := by
    field_simp
  rw [h1, roundHalfEven_intCast]

/-- Both stored timestamps of a word are millisecond multiples. -/
def wordMillis (w : LyrWord) : Prop := millis w.start_time ∧ millis w.end_time

/-- All stored timestamps of a line are millisecond multiples. -/
def lineMillis (l : LyrLine) : Prop :=
  millis l.start_time ∧ millis l.end_time ∧ ∀ w ∈ l.words, wordMillis w

/-- Boundary recomputation keeps all stored times millisecond multiples. -/
lemma recomputeBounds_millis (line : LyrLine) (hl : lineMillis line) :
    millis (recomputeBounds line).start_time ∧
    millis (recomputeBounds line).end_time := by
  unfold recomputeBounds
  rcases hw : line.words with _ | ⟨w, ws⟩
  · exact ⟨hl.1, hl.2.1⟩
  · constructor
    · exact (hl.2.2 w (by rw [hw]; simp)).1
    · have hmem : (w :: ws).getLast (List.cons_ne_nil w ws) ∈ w :: ws :=
        List.getLast_mem _
      exact (hl.2.2 _ (by rw [hw]; exact hmem)).2

/-- The per-line step never moves the stored line start before `prev_end`. -/
lemma enforceStep_start_le (cc : String → ℕ) (prevEnd : ℚ) (line : LyrLine)
    (hp : millis prevEnd) (hl : lineMillis line) :
    prevEnd ≤ (enforceStep cc prevEnd line).1.start_time := by
  have hround : roundQ3 prevEnd = prevEnd := roundQ3_eq_self hp
  unfold enforceStep
  simp only
  set s0 := (recomputeBounds line).start_time with hs0
  set e0 := (recomputeBounds line).end_time with he0
  split_ifs <;> dsimp only <;> (try rw [hround]) <;> linarith

/-- The stored end time of the updated line equals the returned `prev_end`. -/
lemma enforceStep_end_eq (cc : String → ℕ) (prevEnd : ℚ) (line : LyrLine)
    (hp : millis prevEnd) (hl : lineMillis line) :
    (enforceStep cc prevEnd line).1.end_time = (enforceStep cc prevEnd line).2 := by
  obtain ⟨hs0m, he0m⟩ := recomputeBounds_millis line hl
  have hph : millis (prevEnd + 1/2) := millis_add hp millis_half
  have hple : millis (prevEnd + max ((recomputeBounds line).end_time
      - (recomputeBounds line).start_time) (1/2)) :=
    millis_add hp (millis_max (millis_sub he0m hs0m) millis_half)
  have hsh : millis ((recomputeBounds line).start_time + 1/2) :=
    millis_add hs0m millis_half
  unfold enforceStep
  simp only
  set s0 := (recomputeBounds line).start_time with hs0
  set e0 := (recomputeBounds line).end_time with he0
  split_ifs <;> dsimp only <;>
    first
      | exact roundQ3_eq_self hph
      | exact roundQ3_eq_self hple
      | exact roundQ3_eq_self hsh
      | rfl

/-- The stored line span is strictly positive after the step. -/
lemma enforceStep_start_lt (cc : String → ℕ) (prevEnd : ℚ) (line : LyrLine)
    (hp : millis prevEnd) (hl : lineMillis line) :
    (enforceStep cc prevEnd line).1.start_time < (enforceStep cc prevEnd line).2 := by
  have hround : roundQ3 prevEnd = prevEnd := roundQ3_eq_self hp
  unfold enforceStep
  simp only
  set s0 := (recomputeBounds line).start_time with hs0
  set e0 := (recomputeBounds line).end_time with he0
  have hmax : (1 : ℚ)/2 ≤ max (e0 - s0) (1/2) := le_max_right _ _
  split_ifs <;> dsimp only <;> (try rw [hround]) <;> linarith

/-- The returned `prev_end` is again a millisecond multiple. -/
lemma enforceStep_millis (cc : String → ℕ) (prevEnd : ℚ) (line : LyrLine)
    (hp : millis prevEnd) (hl : lineMillis line) :
    millis (enforceStep cc prevEnd line).2 := by
  obtain ⟨hs0m, he0m⟩ := recomputeBounds_millis line hl
  have hph : millis (prevEnd + 1/2) := millis_add hp millis_half
  have hple : millis (prevEnd + max ((recomputeBounds line).end_time
      - (recomputeBounds line).start_time) (1/2)) :=
    millis_add hp (millis_max (millis_sub he0m hs0m) millis_half)
  have hsh : millis ((recomputeBounds line).start_time + 1/2) :=
    millis_add hs0m millis_half
  unfold enforceStep
  simp only
  set s0 := (recomputeBounds line).start_time with hs0
  set e0 := (recomputeBounds line).end_time with he0
  split_ifs <;> dsimp only <;>
    first
      | exact hph
      | exact hple
      | exact hsh
      | exact he0m

/-- Combined invariant of the enforcement loop: output lines chain without
overlap, the head starts no earlier than the incoming `prev_end`, and every
output line has strictly positive duration. -/
lemma enforceGo_spec (cc : String → ℕ) :
    ∀ (lines : List LyrLine) (prevEnd : ℚ),
      millis prevEnd → (∀ l ∈ lines, lineMillis l) →
      List.Chain' (fun a b => a.end_time ≤ b.start_time) (enforceGo cc prevEnd lines) ∧
      (∀ l' ∈ (enforceGo cc prevEnd lines).head?, prevEnd ≤ l'.start_time) ∧
      (∀ l' ∈ enforceGo cc prevEnd lines, l'.start_time < l'.end_time) := by
  intro lines
  induction lines with
  | nil =>
    intro prevEnd _ _
    refine ⟨by simp [enforceGo], ?_, ?_⟩ <;> simp [enforceGo]
  | cons l ls ih =>
    intro prevEnd hp hm
    have hstep1 := enforceStep_start_le cc prevEnd l hp (hm l (by simp))
    have hstep2 := enforceStep_end_eq cc prevEnd l hp (hm l (by simp))
    have hstep3 := enforceStep_start_lt cc prevEnd l hp (hm l (by simp))
    have hstep4 := enforceStep_millis cc prevEnd l hp (hm l (by simp))
    have hih := ih (enforceStep cc prevEnd l).2 hstep4
      (fun l' hl' => hm l' (by simp [hl']))
    rw [enforceGo]
    refine ⟨?_, ?_, ?_⟩
    · rw [List.chain'_cons']
      refine ⟨?_, hih.1⟩
      intro y hy
      have := hih.2.1 y hy
      rw [hstep2]
      exact this
    · intro l' hl'
      simp at hl'
      rw [← hl']
      exact hstep1
    · intro l' hl'
      rcases List.mem_cons.mp hl' with hl' | hl'
      · rw [hl', hstep2]
        exact hstep3
      · exact hih.2.2 l' hl'

/-- Inside every branch of the per-line step, the stored line start and the
first word's stored start stay equal: the recomputation copies
`words[0]["start_time"]`, and in the overlap branch both the line start and
the redistribution cursor's first stored value are `round(prev_end, 3)`. -/
lemma enforceStep_head_start (cc : String → ℕ) (prevEnd : ℚ) (line : LyrLine) :
    ∀ w ∈ (enforceStep cc prevEnd line).1.words.head?,
      (enforceStep cc prevEnd line).1.start_time = w.start_time := by
  rcases hw : line.words with - | ⟨w0, ws⟩
  · have h1 : recomputeBounds line = line := by
      unfold recomputeBounds
      rw [hw]
    unfold enforceStep
    rw [h1]
    simp only
    split_ifs <;> simp_all [redistributeWords, redistAux]
  · have h1 : recomputeBounds line =
        { line with
            start_time := w0.start_time,
            end_time := ((w0 :: ws).getLast (List.cons_ne_nil w0 ws)).end_time } := by
      unfold recomputeBounds
      rw [hw]
    unfold enforceStep
    rw [h1]
    simp only
    split_ifs <;> simp_all [redistributeWords, redistAux]

/-- The start-equality invariant holds for every line of the loop output. -/
lemma enforceGo_head_start (cc : String → ℕ) :
    ∀ (lines : List LyrLine) (prevEnd : ℚ),
      ∀ l' ∈ enforceGo cc prevEnd lines, ∀ w ∈ l'.words.head?,
        l'.start_time = w.start_time := by
  intro lines
  induction lines with
  | nil =>
    intro prevEnd l' hl'
    simp [enforceGo] at hl'
  | cons l ls ih =>
    intro prevEnd l' hl'
    rw [enforceGo] at hl'
    rcases List.mem_cons.mp hl' with rfl | hl'
    · exact enforceStep_head_start cc prevEnd l
    · exact ih _ l' hl'

/-- C1 (amended): after `_enforce_monotonic_lines`, consecutive output lines
never overlap (`lines[i].end_time ≤ lines[i+1].start_time`), provided every
input timestamp is an exact millisecond multiple (which the pipeline
guarantees by rounding all stored times to three decimals); and every output
line with words starts exactly at its first word's start time.  (The
word-level non-overlap and last-word end-time equality conjuncts of the
original claim fail; see the counterexample.) -/
theorem enforce_monotonic_lines_nonoverlap (cc : String → ℕ)
    (lines : List LyrLine) (h : ∀ l ∈ lines, lineMillis l) :
    List.Chain' (fun a b => a.end_time ≤ b.start_time)
      (enforceMonotonicLines cc lines) ∧
    ∀ l' ∈ enforceMonotonicLines cc lines,
      ∀ w ∈ l'.words.head?, l'.start_time = w.start_time :=
  ⟨(enforceGo_spec cc lines 0 millis_zero h).1,
   enforceGo_head_start cc lines 0⟩

/-- Witness for the amended C1 at a concrete single-line input. -/
theorem enforce_monotonic_lines_nonoverlap_witness :
    List.Chain' (fun a b => a.end_time ≤ b.start_time)
      (enforceMonotonicLines (fun _ => 1)
        [{ text := "a", start_time := 0, end_time := 1,
           words := [{ text := "a", start_time := 0, end_time := 1 }] }]) ∧
    ∀ l' ∈ enforceMonotonicLines (fun _ => 1)
        [{ text := "a", start_time := 0, end_time := 1,
           words := [{ text := "a", start_time := 0, end_time := 1 }] }],
      ∀ w ∈ l'.words.head?, l'.start_time = w.start_time :=
  enforce_monotonic_lines_nonoverlap (fun _ => 1) _ (by
    intro l hl
    simp only [List.mem_singleton] at hl
    subst hl
    refine ⟨⟨0, by norm_num⟩, ⟨1000, by norm_num⟩, ?_⟩
    intro w hw
    simp only [List.mem_singleton] at hw
    subst hw
    exact ⟨⟨0, by norm_num⟩, ⟨1000, by norm_num⟩⟩)

/-- First line of the C1 counterexample input: its two words overlap
(`a` ends at 2.0 but `b` starts at 1.0) and no clamping branch fires. -/
def sampleLine1 : LyrLine :=
  { text := "ab", start_time := 0, end_time := 3,
    words := [{ text := "a", start_time := 0, end_time := 2 },
              { text := "b", start_time := 1, end_time := 3 }] }

/-- Second line of the C1 counterexample input: its single word runs
backwards, so the `end > start` guard rewrites the line end to 10.5 while the
word keeps its stored end 9.0. -/
def sampleLine2 : LyrLine :=
  { text := "c", start_time := 10, end_time := 9,
    words := [{ text := "c", start_time := 10, end_time := 9 }] }

/-- Counterexample to C1 as stated: on the input
`[sampleLine1, sampleLine2]`, `_enforce_monotonic_lines` returns lines whose
words still overlap within a line and whose line end no longer equals the
last word's end. -/
theorem reconciled_invariant_counterexample :
    ¬ reconciledInvariant
        (enforceMonotonicLines (fun _ => 1) [sampleLine1, sampleLine2]) := by
  have s1 : enforceStep (fun _ => 1) 0 sampleLine1 = (sampleLine1, 3) := by
    unfold enforceStep recomputeBounds sampleLine1
    norm_num [List.getLast]
  have hrA : roundQ3 ((10 : ℚ) + 1/2) = 21/2 := by
    rw [roundQ3_eq_self ⟨10500, by norm_num⟩]; norm_num
  have hrB : roundQ3 ((21 : ℚ)/2) = 21/2 := roundQ3_eq_self ⟨10500, by norm_num⟩
  have s2 : enforceStep (fun _ => 1) 3 sampleLine2 =
      ({ text := "c", start_time := 10, end_time := 21/2,
         words := [{ text := "c", start_time := 10, end_time := 9 }] },
       21/2) := by
    unfold enforceStep recomputeBounds sampleLine2
    norm_num [List.getLast, hrA, hrB]
  have hout : enforceMonotonicLines (fun _ => 1) [sampleLine1, sampleLine2]
      = [sampleLine1,
         { text := "c", start_time := 10, end_time := 21/2,
           words := [{ text := "c", start_time := 10, end_time := 9 }] }] := by
    simp only [enforceMonotonicLines, enforceGo, s1, s2]
  intro hinv
  rw [hout] at hinv
  have h1 := (hinv.2 sampleLine1 (by simp)).1
  unfold sampleLine1 at h1
  rw [List.chain'_cons] at h1
  have h2 := h1.1
  norm_num at h2

/-- C7 (amended): after `_enforce_monotonic_lines`, every output line has
strictly positive duration (`start_time < end_time`), provided every input
timestamp is an exact millisecond multiple; no `[1.0, 15.0]` clamping exists
in the code. -/
theorem enforce_monotonic_lines_pos_duration (cc : String → ℕ)
    (lines : List LyrLine) (h : ∀ l ∈ lines, lineMillis l) :
    ∀ l' ∈ enforceMonotonicLines cc lines, l'.start_time < l'.end_time :=
  (enforceGo_spec cc lines 0 millis_zero h).2.2

/-- Witness for the amended C7 at a concrete single-line input. -/
theorem enforce_monotonic_lines_pos_duration_witness :
    List.Forall (fun l' => l'.start_time < l'.end_time)
      (enforceMonotonicLines (fun _ => 1)
        [{ text := "b", start_time := 0, end_time := 2,
           words := [{ text := "b", start_time := 0, end_time := 2 }] }]) :=
  List.forall_iff_forall_mem.mpr
    (enforce_monotonic_lines_pos_duration (fun _ => 1) _ (by
    intro l hl
    simp only [List.mem_singleton] at hl
    subst hl
    refine ⟨⟨0, by norm_num⟩, ⟨2000, by norm_num⟩, ?_⟩
    intro w hw
    simp only [List.mem_singleton] at hw
    subst hw
    exact ⟨⟨0, by norm_num⟩, ⟨2000, by norm_num⟩⟩))

/-- Degenerate line used in the C7 counterexample: zero duration in, 0.5s
duration out — outside the claimed `[1.0, 15.0]` range. -/
def sampleLine3 : LyrLine :=
  { text := "d", start_time := 0, end_time := 0,
    words := [{ text := "d", start_time := 0, end_time := 0 }] }

/-- Counterexample to C7 as stated: the code contains no `[1.0, 15.0]`
duration clamp; a degenerate line leaves `_enforce_monotonic_lines` with
duration 0.5s. -/
theorem duration_invariant_counterexample :
    ¬ durationInvariant (enforceMonotonicLines (fun _ => 1) [sampleLine3]) := by
  have hrA : roundQ3 ((0 : ℚ) + 1/2) = 1/2 := by
    rw [roundQ3_eq_self ⟨500, by norm_num⟩]; norm_num
  have hrB : roundQ3 ((1 : ℚ)/2) = 1/2 := roundQ3_eq_self ⟨500, by norm_num⟩
  have s3 : enforceStep (fun _ => 1) 0 sampleLine3 =
      ({ text := "d", start_time := 0, end_time := 1/2,
         words := [{ text := "d", start_time := 0, end_time := 0 }] },
       1/2) := by
    unfold enforceStep recomputeBounds sampleLine3
    norm_num [List.getLast, hrA, hrB]
  have hout : enforceMonotonicLines (fun _ => 1) [sampleLine3]
      = [{ text := "d", start_time := 0, end_time := 1/2,
           words := [{ text := "d", start_time := 0, end_time := 0 }] }] := by
    simp only [enforceMonotonicLines, enforceGo, s3]
  intro hinv
  rw [hout] at hinv
  have h1 := (hinv _ (List.mem_singleton.mpr rfl)).1
  norm_num at h1

/-! ## Exception modelling -/

/-- Python exceptions as seen by the pipeline's handlers: `FileNotFoundError`
is distinguished (it is the one exception `align_words` re-raises); every
other exception is collapsed into `other`. -/
inductive PyExc
  | fileNotFound
  | other (msg : String)

/-! ## Prosody annotation stages
(`whisper_processor.py` lines 185-414; the identical energy/pitch handlers
also appear in `lyrics_processor.py` and `whisperx_processor.py`)

Each stage is a `try` block that computes acoustic features and mutates the
segment list, wrapped in an `except` handler that assigns fixed defaults.
The `try`-block outcome enters as an `Except` oracle (`attempt`); the
`except` branches are modelled concretely. -/

/-- Models `_add_energy_to_words`: on any exception, every word of every
segment receives `energy = 0.5` and `energy_curve = [0.5]`. -/
def addEnergyToWords (attempt : Except PyExc (List LyrLine))
    (segments : List LyrLine) : List LyrLine :=
  match attempt with
  | .ok segs => segs
  | .error _ =>
    segments.map fun seg =>
      { seg with words := seg.words.map fun w =>
          { w with energy := some (1/2), energy_curve := some [1/2] } }

/-- Models `_add_pitch_to_words`: on any exception, every word receives
`pitch = 0`, `note = ""`, `midi = 0`. -/
def addPitchToWords (attempt : Except PyExc (List LyrLine))
    (segments : List LyrLine) : List LyrLine :=
  match attempt with
  | .ok segs => segs
  | .error _ =>
    segments.map fun seg =>
      { seg with words := seg.words.map fun w =>
          { w with pitch := some 0, note := some "", midi := some 0 } }

/-- Models `_add_vad_to_words`: on any exception, every word receives
`voiced = 0.5` (the code's fallback, line 413 of whisper_processor.py). -/
def addVadToWords (attempt : Except PyExc (List LyrLine))
    (segments : List LyrLine) : List LyrLine :=
  match attempt with
  | .ok segs => segs
  | .error _ =>
    segments.map fun seg =>
      { seg with words := seg.words.map fun w => { w with voiced := some (1/2) } }

/-- Counterexample to C8 as stated: on a VAD-stage exception the code
assigns `voiced = 0.5`, not the claimed `voiced = 0.0`. -/
theorem vad_default_counterexample :
    ((addVadToWords (.error (.other "vad failure"))
        [{ text := "l", start_time := 0, end_time := 1,
           words := [{ text := "w", start_time := 0, end_time := 1 }] }]).map
      (fun seg => seg.words.map (fun w => w.voiced)))
      = [[some (1/2)]] ∧ some ((1 : ℚ)/2) ≠ some (0 : ℚ) := by
  constructor
  · rfl
  · intro h
    rw [Option.some_inj] at h
    norm_num at h

/-- C8 (amended): when any of the three annotation stages raises, the stage
returns the segment list with the fixed defaults `energy = 0.5`
(curve `[0.5]`), `pitch = 0` (`note = ""`, `midi = 0`) and `voiced = 0.5`
assigned to every word, instead of propagating the exception. -/
theorem annotation_failure_defaults (e1 e2 e3 : PyExc)
    (segments : List LyrLine) :
    (∀ seg ∈ addEnergyToWords (.error e1) segments, ∀ w ∈ seg.words,
        w.energy = some (1/2) ∧ w.energy_curve = some [1/2]) ∧
    (∀ seg ∈ addPitchToWords (.error e2) segments, ∀ w ∈ seg.words,
        w.pitch = some 0 ∧ w.note = some "" ∧ w.midi = some 0) ∧
    (∀ seg ∈ addVadToWords (.error e3) segments, ∀ w ∈ seg.words,
        w.voiced = some (1/2)) := by
  refine ⟨?_, ?_, ?_⟩ <;>
    (intro seg hseg w hw
     simp only [addEnergyToWords, addPitchToWords, addVadToWords,
       List.mem_map] at hseg
     obtain ⟨seg0, _, rfl⟩ := hseg
     simp only [List.mem_map] at hw
     obtain ⟨w0, _, rfl⟩ := hw
     simp)

/-- Witness for the amended C8 at a concrete failing input. -/
theorem annotation_failure_defaults_witness :
    (∀ seg ∈ addEnergyToWords (.error (.other "librosa"))
        [{ text := "s", start_time := 0, end_time := 1,
           words := [{ text := "u", start_time := 0, end_time := 1 }] }],
      ∀ w ∈ seg.words, w.energy = some (1/2) ∧ w.energy_curve = some [1/2]) ∧
    (∀ seg ∈ addPitchToWords (.error (.other "fcpe"))
        [{ text := "s", start_time := 0, end_time := 1,
           words := [{ text := "u", start_time := 0, end_time := 1 }] }],
      ∀ w ∈ seg.words, w.pitch = some 0 ∧ w.note = some "" ∧ w.midi = some 0) ∧
    (∀ seg ∈ addVadToWords (.error (.other "silero"))
        [{ text := "s", start_time := 0, end_time := 1,
           words := [{ text := "u", start_time := 0, end_time := 1 }] }],
      ∀ w ∈ seg.words, w.voiced = some (1/2)) :=
  annotation_failure_defaults (.other "librosa") (.other "fcpe") (.other "silero")
    [{ text := "s", start_time := 0, end_time := 1,
       words := [{ text := "u", start_time := 0, end_time := 1 }] }]

/-! ## align_words failure semantics
(`sofa_aligner.py`, `SOFAAligner.align_words`, lines 449-525) -/

/-- Models `SOFAAligner._load_audio`'s missing-file check
(`if not Path(audio_path).exists(): raise FileNotFoundError`). -/
def loadAudio (fileExists : Bool) : Except PyExc Unit :=
  if fileExists then .ok () else .error .fileNotFound

/-- Models the `try/except` structure of `SOFAAligner.align_words`: load the
audio (raising `FileNotFoundError` when the file is missing), then run the
remaining alignment body — trimming, chunk decision and offset restoration,
abstracted as the oracle `body`, which may raise any exception.
`except FileNotFoundError: raise` re-raises; `except Exception: return []`
swallows everything else. -/
def alignWordsExc (fileExists : Bool) (body : Except PyExc (List LyrWord)) :
    Except PyExc (List LyrWord) :=
  let tryBlock : Except PyExc (List LyrWord) := do
    let _ ← loadAudio fileExists
    body
  match tryBlock with
  | .ok ws => .ok ws
  | .error .fileNotFound => .error .fileNotFound
  | .error _ => .ok []

/-- C4: `align_words` re-raises `FileNotFoundError` when the audio file is
missing; any other exception raised during alignment yields an empty word
list; and no exception other than `FileNotFoundError` ever escapes. -/
theorem align_words_error_semantics (fileExists : Bool)
    (body : Except PyExc (List LyrWord)) :
    (fileExists = false → alignWordsExc fileExists body = .error .fileNotFound) ∧
    (fileExists = true → ∀ m, body = .error (.other m) →
      alignWordsExc fileExists body = .ok []) ∧
    (∀ e, alignWordsExc fileExists body = .error e → e = .fileNotFound) := by
  refine ⟨?_, ?_, ?_⟩
  · intro h
    subst h
    rfl
  · intro h m hb
    subst h
    subst hb
    rfl
  · intro e he
    cases fileExists
    · simp only [alignWordsExc, loadAudio] at he
      cases he
      rfl
    · rcases body with e' | ws
      · rcases e' with _ | m
        · simp only [alignWordsExc, loadAudio] at he
          cases he
          rfl
        · simp only [alignWordsExc, loadAudio] at he
          cases he
      · simp only [alignWordsExc, loadAudio] at he
        cases he

/-- Witness for C4: a missing file propagates `FileNotFoundError`; an ONNX
failure with the file present yields an empty list. -/
theorem align_words_error_semantics_witness :
    alignWordsExc false (.ok []) = .error .fileNotFound ∧
    alignWordsExc true (.error (.other "onnx failure")) = .ok [] :=
  ⟨(align_words_error_semantics false (.ok [])).1 rfl,
   (align_words_error_semantics true
      (.error (.other "onnx failure"))).2.1 rfl "onnx failure" rfl⟩

/-! ## Chunked alignment (`sofa_aligner.py`, `SOFAAligner._align_chunked`) -/

/-- Audio parameters of the SOFA ONNX model (`_SOFA_SAMPLE_RATE`). -/
def SOFA_SAMPLE_RATE : ℕ := 44100

/-- Chunk duration `_CHUNK_DURATION_SEC` (8 minutes). -/
def CHUNK_DURATION_SEC : ℕ := 480

/-- Chunk overlap `_CHUNK_OVERLAP_SEC` (30 s). -/
def CHUNK_OVERLAP_SEC : ℕ := 30

/-- `chunk_samples = int(_CHUNK_DURATION_SEC * _SOFA_SAMPLE_RATE)`. -/
def chunkSamples : ℕ := CHUNK_DURATION_SEC * SOFA_SAMPLE_RATE

/-- `overlap_samples = int(_CHUNK_OVERLAP_SEC * _SOFA_SAMPLE_RATE)`. -/
def overlapSamples : ℕ := CHUNK_OVERLAP_SEC * SOFA_SAMPLE_RATE

/-- `step_samples = chunk_samples - overlap_samples`. -/
def stepSamples : ℕ := chunkSamples - overlapSamples

lemma stepSamples_pos : 0 < stepSamples := by
  norm_num [stepSamples, chunkSamples, overlapSamples,
    CHUNK_DURATION_SEC, CHUNK_OVERLAP_SEC, SOFA_SAMPLE_RATE]

/-- Models the `while pos < total_samples: chunk_starts.append(pos);
pos += step_samples` loop.  The loop is bounded by fuel: `pos` grows by
`stepSamples ≥ 1` per iteration, so `totalSamples` iterations always
suffice (see `chunkStartsGo_fuel_irrel`). -/
def chunkStartsGo (totalSamples : ℕ) : ℕ → ℕ → List ℕ
  | 0, _ => []
  | fuel + 1, pos =>
    if pos < totalSamples then
      pos :: chunkStartsGo totalSamples fuel (pos + stepSamples)
    else []

/-- Chunk start positions, beginning from sample 0. -/
def chunkStarts (totalSamples : ℕ) : List ℕ :=
  chunkStartsGo totalSamples totalSamples 0

/-- Any fuel bounding the remaining distance gives the same result, so the
fuel-based loop agrees with the unbounded `while` loop. -/
lemma chunkStartsGo_fuel_irrel (totalSamples : ℕ) :
    ∀ fuel fuel' pos, totalSamples - pos ≤ fuel → totalSamples - pos ≤ fuel' →
      chunkStartsGo totalSamples fuel pos = chunkStartsGo totalSamples fuel' pos := by
  intro fuel
  induction fuel with
  | zero =>
    intro fuel' pos h h'
    rcases fuel' with _ | m
    · rfl
    · rw [chunkStartsGo, chunkStartsGo, if_neg (by omega)]
  | succ n ih =>
    intro fuel' pos h h'
    rcases fuel' with _ | m
    · rw [chunkStartsGo, chunkStartsGo, if_neg (by omega)]
    · rw [chunkStartsGo, chunkStartsGo]
      by_cases hpos : pos < totalSamples
      · rw [if_pos hpos, if_pos hpos]
        have hstep := stepSamples_pos
        rw [ih m (pos + stepSamples) (by omega) (by omega)]
      · rw [if_neg hpos, if_neg hpos]

lemma chunkStarts_length_pos {totalSamples : ℕ} (h : 0 < totalSamples) :
    1 ≤ (chunkStarts totalSamples).length := by
  unfold chunkStarts
  obtain ⟨m, rfl⟩ : ∃ m, totalSamples = m + 1 := ⟨totalSamples - 1, by omega⟩
  rw [chunkStartsGo, if_pos h]
  simp only [List.length_cons]
  omega

/-- Models `SOFAAligner._split_text_for_chunks` at the level of the
newline-split, blank-filtered line list: the Python function receives the
joined lyric text, recomputes this exact list, and returns newline-joined
chunk strings — an empty chunk string corresponds to an empty line list.
`math.ceil(len(lines) / num_chunks)` is written with natural ceiling
division; the trailing pad loop is included although it never fires. -/
def splitLinesForChunks (lines : List String) (numChunks : ℕ) :
    List (List String) :=
  if lines = [] then List.replicate numChunks []
  else
    let lpc := max 1 ((lines.length + numChunks - 1) / numChunks)
    let chunks := (List.range numChunks).map
      (fun i => (lines.drop (i * lpc)).take lpc)
    chunks ++ List.replicate (numChunks - chunks.length) []

/-- Per-chunk timestamp offsetting
(`round(word[...] + time_offset, 3)` with `time_offset = sample_start / sr`). -/
def offsetWord (sampleStart : ℕ) (w : LyrWord) : LyrWord :=
  { w with
    start_time := roundQ3 (w.start_time + (sampleStart : ℚ) / (SOFA_SAMPLE_RATE : ℚ)),
    end_time := roundQ3 (w.end_time + (sampleStart : ℚ) / (SOFA_SAMPLE_RATE : ℚ)) }

/-- Non-overlapping boundary of a chunk
(`boundary = (sample_start + step_samples) / _SOFA_SAMPLE_RATE`). -/
def chunkBoundary (sampleStart : ℕ) : ℚ :=
  ((sampleStart + stepSamples : ℕ) : ℚ) / (SOFA_SAMPLE_RATE : ℚ)

/-- Stable insertion of a word into a start-time-sorted list. -/
def insertWord (w : LyrWord) : List LyrWord → List LyrWord
  | [] => [w]
  | y :: ys =>
    if w.start_time ≤ y.start_time then w :: y :: ys else y :: insertWord w ys

/-- Models `all_words.sort(key=lambda w: w["start_time"])`: Python's sort is
a stable ascending sort by key, and a stable sort is uniquely determined, so
stable insertion sort by the same key computes the identical list. -/
def sortWords : List LyrWord → List LyrWord
  | [] => []
  | w :: ws => insertWord w (sortWords ws)

/-- Models `SOFAAligner._align_chunked`: compute chunk starts, split the
lyric lines across chunks, align each chunk (the external `_align_single`
call on the sliced waveform and chunk text enters as `oracle`, indexed by
chunk number), offset each word by the chunk's absolute start, drop words at
or past the non-overlapping boundary for every chunk but the last, skip
empty-text chunks, concatenate, and sort by start time. -/
def alignChunked (oracle : ℕ → List LyrWord) (totalSamples : ℕ)
    (lines : List String) : List LyrWord :=
  let starts := chunkStarts totalSamples
  let numChunks := starts.length
  let textChunks := splitLinesForChunks lines numChunks
  let pieces := ((starts.zip textChunks).enum).map fun p =>
    if p.2.2 = [] then []
    else
      let ws := (oracle p.1).map (offsetWord p.2.1)
      if p.1 < numChunks - 1 then
        ws.filter (fun w => w.start_time < chunkBoundary p.2.1)
      else ws
  sortWords pieces.flatten

/-! ### Sorting lemmas -/

lemma mem_insertWord {b w : LyrWord} :
    ∀ {l : List LyrWord}, b ∈ insertWord w l ↔ b = w ∨ b ∈ l := by
  intro l
  induction l with
  | nil => simp [insertWord]
  | cons y ys ih =>
    rw [insertWord]
    split_ifs
    · simp [List.mem_cons]
    · simp only [List.mem_cons, ih]
      tauto

lemma pairwise_insertWord (w : LyrWord) {l : List LyrWord}
    (h : List.Pairwise (fun a b => a.start_time ≤ b.start_time) l) :
    List.Pairwise (fun a b => a.start_time ≤ b.start_time) (insertWord w l) := by
  induction l with
  | nil => simp [insertWord]
  | cons y ys ih =>
    rw [insertWord]
    rw [List.pairwise_cons] at h
    split_ifs with hle
    · rw [List.pairwise_cons]
      refine ⟨?_, List.pairwise_cons.mpr h⟩
      intro b hb
      rcases List.mem_cons.mp hb with rfl | hb
      · exact hle
      · exact le_trans hle (h.1 b hb)
    · rw [List.pairwise_cons]
      refine ⟨?_, ih h.2⟩
      intro b hb
      rcases mem_insertWord.mp hb with rfl | hb
      · exact le_of_not_le hle
      · exact h.1 b hb

lemma pairwise_sortWords :
    ∀ l : List LyrWord,
      List.Pairwise (fun a b => a.start_time ≤ b.start_time) (sortWords l)
  | [] => by simp [sortWords]
  | w :: ws => by
    rw [sortWords]
    exact pairwise_insertWord w (pairwise_sortWords ws)

lemma mem_sortWords {a : LyrWord} :
    ∀ {l : List LyrWord}, a ∈ sortWords l ↔ a ∈ l := by
  intro l
  induction l with
  | nil => simp [sortWords]
  | cons w ws ih =>
    rw [sortWords, mem_insertWord]
    simp [ih]

/-! ### Chunk-merge lemmas -/

lemma ceil_div_mul_ge (a b : ℕ) (hb : 0 < b) : a ≤ (a + b - 1) / b * b := by
  have h1 := Nat.div_add_mod (a + b - 1) b
  have h2 := Nat.mod_lt (a + b - 1) hb
  rw [Nat.mul_comm]
  omega

lemma range_slices_flatten {α : Type} (l : List α) (k : ℕ) :
    ∀ n : ℕ, ((List.range n).map (fun i => (l.drop (i * k)).take k)).flatten
      = l.take (n * k)
  | 0 => by simp
  | n + 1 => by
    rw [List.range_succ, List.map_append, List.flatten_append,
      range_slices_flatten l k n]
    simp only [List.map_cons, List.map_nil, List.flatten_cons,
      List.flatten_nil, List.append_nil]
    rw [← List.take_add]
    congr 1
    ring

lemma splitLinesForChunks_length (lines : List String) (n : ℕ) :
    (splitLinesForChunks lines n).length = n := by
  unfold splitLinesForChunks
  split_ifs
  · simp
  · simp

/-- Every lyric line lands in exactly one chunk: concatenating the chunk
line-slices restores the original list. -/
lemma splitLinesForChunks_flatten (lines : List String) (n : ℕ)
    (hn : 1 ≤ n) :
    (splitLinesForChunks lines n).flatten = lines := by
  unfold splitLinesForChunks
  split_ifs with hl
  · subst hl
    simp
  · simp only [List.length_map, List.length_range, Nat.sub_self,
      List.replicate_zero, List.append_nil]
    rw [range_slices_flatten]
    apply List.take_of_length_le
    have hceil := ceil_div_mul_ge lines.length n hn
    have hle : (lines.length + n - 1) / n ≤ max 1 ((lines.length + n - 1) / n) :=
      le_max_right _ _
    calc lines.length ≤ (lines.length + n - 1) / n * n := hceil
      _ ≤ max 1 ((lines.length + n - 1) / n) * n := Nat.mul_le_mul_right n hle
      _ = n * max 1 ((lines.length + n - 1) / n) := Nat.mul_comm _ _

lemma mem_enum_fst_lt {α : Type} {l : List α} {p : ℕ × α} (hp : p ∈ l.enum) :
    p.1 < l.length := by
  obtain ⟨i, x⟩ := p
  rw [List.mk_mem_enum_iff_getElem?] at hp
  exact (List.getElem?_eq_some.mp hp).1

/-- C5: the chunk-merge of `_align_chunked` returns words sorted by
non-decreasing start time; a word appears in the output exactly when it
comes from some chunk with non-empty text, offset by that chunk's absolute
start, and (for every chunk except the last) starts strictly before the
chunk's non-overlapping boundary `chunk_start + (chunk_len − overlap)`; and
the lyric lines are partitioned across the chunks, so no word of the text is
given to two chunks. -/
theorem align_chunked_merge (oracle : ℕ → List LyrWord) (totalSamples : ℕ)
    (lines : List String) (htot : 0 < totalSamples) :
    List.Pairwise (fun a b => a.start_time ≤ b.start_time)
      (alignChunked oracle totalSamples lines) ∧
    (∀ w : LyrWord, w ∈ alignChunked oracle totalSamples lines ↔
      ∃ p ∈ ((chunkStarts totalSamples).zip
          (splitLinesForChunks lines (chunkStarts totalSamples).length)).enum,
        p.2.2 ≠ [] ∧ ∃ rw0 ∈ oracle p.1,
          w = offsetWord p.2.1 rw0 ∧
          (p.1 = (chunkStarts totalSamples).length - 1 ∨
            w.start_time < chunkBoundary p.2.1)) ∧
    (splitLinesForChunks lines (chunkStarts totalSamples).length).flatten
      = lines := by
  have hzl : (((chunkStarts totalSamples).zip
      (splitLinesForChunks lines (chunkStarts totalSamples).length))).length
      = (chunkStarts totalSamples).length := by
    rw [List.length_zip, splitLinesForChunks_length]
    exact Nat.min_self _
  refine ⟨?_, ?_, ?_⟩
  · unfold alignChunked
    exact pairwise_sortWords _
  · intro w
    unfold alignChunked
    simp only [mem_sortWords, List.mem_flatten, List.mem_map]
    constructor
    · rintro ⟨piece, ⟨p, hp, rfl⟩, hw⟩
      refine ⟨p, hp, ?_⟩
      by_cases hempty : p.2.2 = []
      · rw [if_pos hempty] at hw
        simp at hw
      · rw [if_neg hempty] at hw
        refine ⟨hempty, ?_⟩
        by_cases hlt : p.1 < (chunkStarts totalSamples).length - 1
        · rw [if_pos hlt, List.mem_filter] at hw
          obtain ⟨hwmem, hwb⟩ := hw
          rw [List.mem_map] at hwmem
          obtain ⟨rw0, hrw0, rfl⟩ := hwmem
          exact ⟨rw0, hrw0, rfl, Or.inr (by simpa using hwb)⟩
        · rw [if_neg hlt, List.mem_map] at hw
          obtain ⟨rw0, hrw0, rfl⟩ := hw
          have hplt : p.1 < (chunkStarts totalSamples).length := by
            have := mem_enum_fst_lt hp
            omega
          exact ⟨rw0, hrw0, rfl, Or.inl (by omega)⟩
    · rintro ⟨p, hp, hne, rw0, hrw0, rfl, hcond⟩
      refine ⟨_, ⟨p, hp, rfl⟩, ?_⟩
      rw [if_neg hne]
      by_cases hlt : p.1 < (chunkStarts totalSamples).length - 1
      · rw [if_pos hlt, List.mem_filter]
        refine ⟨List.mem_map.mpr ⟨rw0, hrw0, rfl⟩, ?_⟩
        rcases hcond with heq | hb
        · omega
        · simpa using hb
      · rw [if_neg hlt]
        exact List.mem_map.mpr ⟨rw0, hrw0, rfl⟩
  · exact splitLinesForChunks_flatten lines _ (chunkStarts_length_pos htot)

/-- Witness for C5 at a one-sample waveform, a single lyric line and an
empty-result aligner oracle. -/
theorem align_chunked_merge_witness :
    List.Pairwise (fun a b => a.start_time ≤ b.start_time)
      (alignChunked (fun _ => []) 1 ["가"]) ∧
    (∀ w : LyrWord, w ∈ alignChunked (fun _ => []) 1 ["가"] ↔
      ∃ p ∈ ((chunkStarts 1).zip
          (splitLinesForChunks ["가"] (chunkStarts 1).length)).enum,
        p.2.2 ≠ [] ∧ ∃ rw0 ∈ (fun _ : ℕ => ([] : List LyrWord)) p.1,
          w = offsetWord p.2.1 rw0 ∧
          (p.1 = (chunkStarts 1).length - 1 ∨
            w.start_time < chunkBoundary p.2.1)) ∧
    (splitLinesForChunks ["가"] (chunkStarts 1).length).flatten = ["가"] :=
  align_chunked_merge (fun _ => []) 1 ["가"] (by norm_num)

/-! ### Intro-silence detection (`SOFAAligner._detect_and_trim_intro`) -/

/-- Ascending insertion of a rational into a sorted list (models `np.sort`). -/
def insertQ (x : ℚ) : List ℚ → List ℚ
  | [] => [x]
  | y :: ys => if x ≤ y then x :: y :: ys else y :: insertQ x ys

/-- Ascending sort of the RMS frame energies (models `np.sort(rms)`). -/
def sortQ (l : List ℚ) : List ℚ := l.foldr insertQ []

/-- `np.median` of an already-sorted list: middle element for odd length,
mean of the two middle elements for even length. -/
def medianSorted (l : List ℚ) : ℚ :=
  if l.length % 2 = 1 then l.getD (l.length / 2) 0
  else (l.getD (l.length / 2 - 1) 0 + l.getD (l.length / 2) 0) / 2

/-- The two-stage threshold: median RMS of the loudest 20% of frames
(`rms_sorted[int(0.80 * len):]`, the float product truncating to
`4 * n / 5`), scaled by 8%. -/
def introThreshold (rms : List ℚ) : ℚ :=
  medianSorted ((sortQ rms).drop (4 * rms.length / 5)) * (8 / 100)

/-- The onset-search loop: walk the frames keeping a count of consecutive
above-threshold frames, and break with `i - sustained_frames + 1` as soon as
the count reaches 15.  (At a break `i ≥ 14`, so the truncated natural
subtraction `i + 1 - 15` agrees with Python's `i - 15 + 1`.) -/
def findOnsetAux (t : ℚ) : List ℚ → ℕ → ℕ → Option ℕ
  | [], _, _ => none
  | r :: rest, i, consecutive =>
    if t < r then
      if 15 ≤ consecutive + 1 then some (i + 1 - 15)
      else findOnsetAux t rest (i + 1) (consecutive + 1)
    else findOnsetAux t rest (i + 1) 0

/-- `_detect_and_trim_intro` on the RMS frame-energy sequence (the RMS
extraction itself involves `sqrt` and is supplied as the input list).
Hop is 2048 samples at 44100 Hz; fewer than `sustained_frames * 2` frames
means no trim; an undetected onset leaves `onset_frame = 0`. -/
def detectAndTrimIntro (rms : List ℚ) : ℚ :=
  if rms.length < 15 * 2 then 0
  else
    let threshold := introThreshold rms
    let onsetFrame := (findOnsetAux threshold rms 0 0).getD 0
    let frameSec : ℚ := 2048 / 44100
    let onsetSec := (onsetFrame : ℚ) * frameSec
    if onsetSec < 8 then 0 else max 0 (onsetSec - 2)

/-- Spec-side notion: a vocal run starts right here when at least 15 frames
remain and the next 15 all exceed the threshold. -/
def runHere (t : ℚ) (l : List ℚ) : Prop :=
  15 ≤ l.length ∧ ∀ r ∈ l.take 15, t < r

instance (t : ℚ) (l : List ℚ) : Decidable (runHere t l) :=
  inferInstanceAs (Decidable (_ ∧ _))

/-- Spec-side first-run search: the index of the first frame that starts a
run of at least 15 consecutive above-threshold frames. -/
def firstRunStart (t : ℚ) : List ℚ → Option ℕ
  | [] => none
  | r :: rest =>
    if runHere t (r :: rest) then some 0
    else (firstRunStart t rest).map (· + 1)

lemma findOnsetAux_advance (t : ℚ) :
    ∀ (pre rest : List ℚ) (i c : ℕ), (∀ r ∈ pre, t < r) →
      c + pre.length < 15 →
      findOnsetAux t (pre ++ rest) i c
        = findOnsetAux t rest (i + pre.length) (c + pre.length)
  | [], rest, i, c, _, _ => by simp
  | r :: pre, rest, i, c, hall, hlt => by
    have hr : t < r := hall r (List.mem_cons_self r pre)
    have h15 : ¬ 15 ≤ c + 1 := by
      simp only [List.length_cons] at hlt
      omega
    rw [List.cons_append, findOnsetAux, if_pos hr, if_neg h15,
      findOnsetAux_advance t pre rest (i + 1) (c + 1)
        (fun x hx => hall x (List.mem_cons_of_mem r hx))
        (by simp only [List.length_cons] at hlt; omega)]
    congr 1 <;> simp only [List.length_cons] <;> omega

lemma findOnsetAux_break (t : ℚ) :
    ∀ (pre rest : List ℚ) (i c : ℕ), (∀ r ∈ pre, t < r) →
      c + pre.length = 15 → 1 ≤ pre.length →
      findOnsetAux t (pre ++ rest) i c = some (i + pre.length - 15)
  | [], _, _, _, _, _, hp => by simp at hp
  | r :: pre, rest, i, c, hall, hsum, _ => by
    have hr : t < r := hall r (List.mem_cons_self r pre)
    rw [List.cons_append, findOnsetAux, if_pos hr]
    rcases Nat.eq_zero_or_pos pre.length with hz | hpos
    · have hpre : pre = [] := List.length_eq_zero.mp hz
      subst hpre
      have hc : c = 14 := by simp only [List.length_cons, List.length_nil] at hsum; omega
      subst hc
      rw [if_pos (by omega)]
      simp
    · have h15 : ¬ 15 ≤ c + 1 := by
        simp only [List.length_cons] at hsum
        omega
      rw [if_neg h15,
        findOnsetAux_break t pre rest (i + 1) (c + 1)
          (fun x hx => hall x (List.mem_cons_of_mem r hx))
          (by simp only [List.length_cons] at hsum; omega) hpos]
      congr 1
      simp only [List.length_cons]
      omega

lemma findOnsetAux_all_true_short (t : ℚ) :
    ∀ (l : List ℚ) (i c : ℕ), (∀ r ∈ l, t < r) → c + l.length < 15 →
      findOnsetAux t l i c = none
  | [], _, _, _, _ => rfl
  | r :: l, i, c, hall, hlt => by
    have hr : t < r := hall r (List.mem_cons_self r l)
    have h15 : ¬ 15 ≤ c + 1 := by
      simp only [List.length_cons] at hlt
      omega
    rw [findOnsetAux, if_pos hr, if_neg h15]
    exact findOnsetAux_all_true_short t l (i + 1) (c + 1)
      (fun x hx => hall x (List.mem_cons_of_mem r hx))
      (by simp only [List.length_cons] at hlt; omega)

lemma dropWhile_head_false {α : Type} (p : α → Bool) :
    ∀ (l : List α) {r : α} {rest : List α}, l.dropWhile p = r :: rest →
      p r = false
  | [], r, rest => by simp [List.dropWhile]
  | x :: xs, r, rest => by
    intro h
    rw [List.dropWhile_cons] at h
    by_cases hx : p x
    · rw [if_pos hx] at h
      exact dropWhile_head_false p xs h
    · rw [if_neg hx] at h
      obtain ⟨rfl, -⟩ := List.cons_eq_cons.mp h.symm
      exact Bool.of_not_eq_true hx

lemma not_runHere_of_false (t : ℚ) (pre : List ℚ) (r : ℚ) (rest : List ℚ)
    (hk : pre.length < 15) (hr : ¬ t < r) :
    ¬ runHere t (pre ++ r :: rest) := by
  rintro ⟨-, hall⟩
  apply hr
  apply hall
  rw [List.take_append_eq_append_take]
  refine List.mem_append_right _ ?_
  obtain ⟨m, hm⟩ : ∃ m, 15 - pre.length = m + 1 := ⟨14 - pre.length, by omega⟩
  rw [hm, List.take_succ_cons]
  exact List.mem_cons_self _ _

lemma firstRunStart_skip (t r : ℚ) (hr : ¬ t < r) :
    ∀ (pre : List ℚ), pre.length < 15 → (∀ x ∈ pre, t < x) →
      ∀ (rest : List ℚ),
      firstRunStart t (pre ++ r :: rest)
        = (firstRunStart t rest).map (· + (pre.length + 1))
  | [], _, _, rest => by
    rw [List.nil_append, firstRunStart,
      if_neg (by
        have := not_runHere_of_false t [] r rest (by simp) hr
        simpa using this)]
    simp
  | x :: pre, hk, hall, rest => by
    rw [List.cons_append, firstRunStart,
      if_neg (by
        have := not_runHere_of_false t (x :: pre) r rest hk hr
        simpa using this),
      firstRunStart_skip t r hr pre
        (by simp only [List.length_cons] at hk; omega)
        (fun y hy => hall y (List.mem_cons_of_mem x hy)) rest]
    rcases firstRunStart t rest with - | j
    · rfl
    · simp only [Option.map_some', Option.map_map, List.length_cons]
      refine congrArg _ ?_
      omega

lemma firstRunStart_of_runHere (t : ℚ) (l : List ℚ) (h : runHere t l) :
    firstRunStart t l = some 0 := by
  rcases l with - | ⟨r, rest⟩
  · exact absurd h.1 (by simp [runHere])
  · rw [firstRunStart, if_pos h]

lemma firstRunStart_none_short (t : ℚ) :
    ∀ (l : List ℚ), l.length < 15 → firstRunStart t l = none
  | [], _ => rfl
  | r :: rest, hl => by
    rw [firstRunStart,
      if_neg (fun h => absurd h.1 (by omega)),
      firstRunStart_none_short t rest
        (by simp only [List.length_cons] at hl; omega)]
    rfl

lemma firstRunStart_some_le (t : ℚ) :
    ∀ (l : List ℚ) (j : ℕ), firstRunStart t l = some j → j + 15 ≤ l.length
  | [], j => fun h => Option.noConfusion h
  | r :: rest, j => by
    rw [firstRunStart]
    split_ifs with h
    · intro hj
      obtain rfl : j = 0 := by simpa using hj.symm
      simpa using h.1
    · intro hj
      rcases hmap : firstRunStart t rest with - | j0
      · rw [hmap] at hj
        simp at hj
      · rw [hmap] at hj
        simp only [Option.map_some', Option.some.injEq] at hj
        have := firstRunStart_some_le t rest j0 hmap
        simp only [List.length_cons]
        omega

/-- The imperative consecutive-counter loop computes exactly the start of the
first run of at least 15 consecutive above-threshold frames. -/
lemma findOnset_eq_firstRun (t : ℚ) :
    ∀ (n : ℕ) (l : List ℚ), l.length ≤ n → ∀ i : ℕ,
      findOnsetAux t l i 0 = (firstRunStart t l).map (· + i) := by
  intro n
  induction n with
  | zero =>
    intro l hl i
    obtain rfl : l = [] := List.length_eq_zero.mp (Nat.le_zero.mp hl)
    rfl
  | succ n IH =>
    intro l hl i
    set p : ℚ → Bool := fun r => decide (t < r) with hp
    have hdecomp := List.takeWhile_append_dropWhile p l
    have hpre_true : ∀ x ∈ l.takeWhile p, t < x := fun x hx => by
      have := List.mem_takeWhile_imp hx
      rw [hp] at this
      exact of_decide_eq_true this
    by_cases hk : 15 ≤ (l.takeWhile p).length
    · have hall15 : ∀ x ∈ l.take 15, t < x := by
        intro x hx
        apply hpre_true
        have htk : l.take 15 = (l.takeWhile p).take 15 := by
          conv_lhs => rw [← hdecomp]
          rw [List.take_append_eq_append_take, Nat.sub_eq_zero_of_le hk]
          simp
        rw [htk] at hx
        exact List.mem_of_mem_take hx
      have hlen15 : 15 ≤ l.length := le_trans hk (List.takeWhile_prefix p).length_le
      have hrunh : runHere t l := ⟨hlen15, hall15⟩
      rw [firstRunStart_of_runHere t l hrunh]
      have hsplit : l = l.take 15 ++ l.drop 15 := (List.take_append_drop 15 l).symm
      have hlen_take : (l.take 15).length = 15 := by
        rw [List.length_take]
        omega
      conv_lhs => rw [hsplit]
      rw [findOnsetAux_break t (l.take 15) (l.drop 15) i 0 hall15
        (by rw [hlen_take]) (by rw [hlen_take]; omega)]
      rw [hlen_take]
      simp
    · push_neg at hk
      rcases hdw : l.dropWhile p with - | ⟨r, rest⟩
      · have hleq : l = l.takeWhile p := by
          conv_lhs => rw [← hdecomp]
          rw [hdw, List.append_nil]
        have hlt : l.length < 15 := by
          rw [hleq]
          exact hk
        have hall : ∀ r ∈ l, t < r := by
          intro r hrm
          apply hpre_true
          rw [← hleq]
          exact hrm
        rw [findOnsetAux_all_true_short t l i 0 hall (by omega),
          firstRunStart_none_short t l hlt]
        rfl
      · have hrfalse : ¬ t < r := by
          have := dropWhile_head_false p l hdw
          rw [hp] at this
          simpa using this
        have hldec : l = l.takeWhile p ++ r :: rest := by
          conv_lhs => rw [← hdecomp]
          rw [hdw]
        have hrest_len : rest.length ≤ n := by
          have hlen2 : l.length = (l.takeWhile p).length + (rest.length + 1) := by
            conv_lhs => rw [hldec]
            simp
          omega
        conv_lhs => rw [hldec]
        rw [findOnsetAux_advance t (l.takeWhile p) (r :: rest) i 0
          hpre_true (by omega)]
        rw [findOnsetAux, if_neg hrfalse,
          IH rest hrest_len (i + (l.takeWhile p).length + 1)]
        conv_rhs => rw [hldec]
        rw [firstRunStart_skip t r hrfalse (l.takeWhile p) hk hpre_true rest]
        rcases firstRunStart t rest with - | j
        · rfl
        · simp only [Option.map_some', Option.map_map, Function.comp_apply,
            Option.some.injEq]
          omega

/-- C6: whenever the RMS sequence has a vocal onset — a first run of at least
15 consecutive frames above 8% of the singing level derived from the loudest
20% of frames — the intro detector returns 0 when the onset time
(`onset_frame * 2048/44100` seconds) is under the 8-second minimum intro
duration, and otherwise `max 0 (onset − 2)` with the 2-second preroll kept. -/
theorem intro_trim_onset (rms : List ℚ) (j : ℕ)
    (hrun : firstRunStart (introThreshold rms) rms = some j) :
    detectAndTrimIntro rms =
      if (j : ℚ) * (2048 / 44100) < 8 then 0
      else max 0 ((j : ℚ) * (2048 / 44100) - 2) := by
  have hj15 := firstRunStart_some_le (introThreshold rms) rms j hrun
  unfold detectAndTrimIntro
  by_cases hlen : rms.length < 15 * 2
  · rw [if_pos hlen]
    have hjle : (j : ℚ) ≤ 14 := by
      exact_mod_cast (by omega : j ≤ 14)
    have hsec : (j : ℚ) * (2048 / 44100) < 8 := by
      calc (j : ℚ) * (2048 / 44100) ≤ 14 * (2048 / 44100) := by
            apply mul_le_mul_of_nonneg_right hjle
            norm_num
        _ < 8 := by norm_num
    rw [if_pos hsec]
  · rw [if_neg hlen]
    have heq := findOnset_eq_firstRun (introThreshold rms) rms.length rms
      le_rfl 0
    rw [hrun] at heq
    simp only [Option.map_some', Nat.add_zero] at heq
    simp only [heq, Option.getD_some]

lemma insertQ_replicate_one : ∀ n : ℕ,
    insertQ 1 (List.replicate n (1 : ℚ)) = List.replicate (n + 1) 1
  | 0 => rfl
  | n + 1 => by
    rw [List.replicate_succ, insertQ, if_pos le_rfl, ← List.replicate_succ,
      ← List.replicate_succ]

lemma sortQ_replicate_one : ∀ n : ℕ,
    sortQ (List.replicate n (1 : ℚ)) = List.replicate n 1
  | 0 => rfl
  | n + 1 => by
    rw [List.replicate_succ, sortQ, List.foldr_cons]
    have : List.foldr insertQ [] (List.replicate n (1 : ℚ))
        = List.replicate n 1 := sortQ_replicate_one n
    rw [this, insertQ_replicate_one, List.replicate_succ]

/-- Witness for C6: thirty frames of unit RMS give singing level 1, threshold
2/25, an onset at frame 0 and hence no trim. -/
theorem intro_trim_onset_witness :
    firstRunStart (introThreshold (List.replicate 30 (1 : ℚ)))
        (List.replicate 30 (1 : ℚ)) = some 0 ∧
    detectAndTrimIntro (List.replicate 30 (1 : ℚ)) =
      if ((0 : ℕ) : ℚ) * (2048 / 44100) < 8 then 0
      else max 0 (((0 : ℕ) : ℚ) * (2048 / 44100) - 2) := by
  have hthr : introThreshold (List.replicate 30 (1 : ℚ)) = 2 / 25 := by
    unfold introThreshold
    rw [sortQ_replicate_one]
    simp only [List.length_replicate]
    norm_num [List.drop_replicate, medianSorted, List.getD,
      List.getElem?_replicate]
  have hrun : firstRunStart (introThreshold (List.replicate 30 (1 : ℚ)))
      (List.replicate 30 (1 : ℚ)) = some 0 := by
    apply firstRunStart_of_runHere
    constructor
    · simp
    · intro r hr
      rw [List.take_replicate] at hr
      have := List.eq_of_mem_replicate hr
      subst this
      rw [hthr]
      norm_num
  exact ⟨hrun, intro_trim_onset (List.replicate 30 (1 : ℚ)) 0 hrun⟩

end Kero
